import Mathlib

/-!
# ulid-flake-go: a shallow embedding of `ulidflake/ulidflake.go`

The package produces 64-bit, time-sortable identifiers (a 43-bit millisecond
timestamp followed by 20 bits of randomness) together with a Crockford base-32
codec.  This file embeds the package in Lean and proves properties of it.

Conventions of the embedding.

* Go `int64` values are unbounded `Int`s; every operation that can leave the
  64-bit range (`+`, `*`, `<<`) is followed by the two's-complement reduction
  `int64`.  `&`, `|` and `>>` are the two's-complement operations on `Int`
  (`Int.land`, `Int.lor`, arithmetic `>>>`), which never leave the range.
* A Go `string` is its sequence of bytes; `len` is the number of bytes and a
  `range` loop walks the UTF-8 decoded runes (`runes`).
* `(*UlidFlake, error)` results are `Except Error UlidFlake`.
* The package-level variables are the fields of `State`; the clock reading and
  the random source of a call are explicit arguments.  Functions that can
  write the variables return the state they leave behind.
* A Go `Option` (`func(*config) error`) is a function from the draft to the
  updated draft or an error (`ConfigOption`).
* The only unbounded loop (the redraw loop of `New`) is run with fuel; `none`
  means that the loop has not finished within the fuel.
-/

namespace Ulidflake

/-! ## Machine integers -/

/-- Two's-complement reduction of an integer to the `int64` range. -/
def int64 (x : Int) : Int := (x + 2 ^ 63) % 2 ^ 64 - 2 ^ 63

/-- Go `a + b` on `int64`. -/
def add64 (a b : Int) : Int := int64 (a + b)

/-- Go `a - b` on `int64`. -/
def sub64 (a b : Int) : Int := int64 (a - b)

/-- Go `a * b` on `int64`. -/
def mul64 (a b : Int) : Int := int64 (a * b)

/-- Go `a << n` on `int64`: the bits shifted past bit 63 are lost. -/
def shl64 (a : Int) (n : Nat) : Int := int64 (a * 2 ^ n)

/-! ## Constants -/

def DefaultEpochSec : Int := 1704067200

def IntSize : Nat := 63
def MinInt : Int := 0
def MaxInt : Int := 2 ^ IntSize - 1

def TimestampSize : Nat := 43
def MinTimestamp : Int := 0
def MaxTimestamp : Int := 2 ^ TimestampSize - 1

def RandomnessSize : Nat := 20
def MinRandomness : Int := 0
def MaxRandomness : Int := 2 ^ RandomnessSize - 1

def MinEntropySize : Int := 1
def MaxEntropySize : Int := 3

def UlidFlakeLen : Nat := 13

/-! ## Strings -/

abbrev Byte := Fin 256

/-- A Go string: a sequence of bytes. -/
abbrev GoString := List Byte

/-- A Go rune (a Unicode code point; never negative here). -/
abbrev Rune := Nat

/-- The Go string written by an ASCII literal. -/
def ascii (s : String) : GoString := s.toList.map (fun c => Fin.ofNat c.toNat)

def MinUlidFlake : GoString := ascii "0000000000000"
def MaxUlidFlake : GoString := ascii "7ZZZZZZZZZZZZ"

/-- Crockford base-32 alphabet. -/
def encoding : GoString := ascii "0123456789ABCDEFGHJKMNPQRSTVWXYZ"

def runeError : Rune := 0xFFFD

/-- Go runtime `decoderune` for a first byte that is not ASCII: the rune that
starts the byte sequence `b0 :: rest` and the number of bytes it occupies.
Anything that is not a shortest-form encoding of a code point gives
`(runeError, 1)`. -/
def decoderune (b0 : Byte) (rest : List Byte) : Rune × Nat :=
  let cont (b : Byte) : Bool := 0x80 ≤ b.val && b.val ≤ 0xBF
  if 0xC0 ≤ b0.val ∧ b0.val < 0xE0 then
    match rest with
    | b1 :: _ =>
      let r := (b0.val &&& 0x1F) <<< 6 ||| (b1.val &&& 0x3F)
      if cont b1 ∧ 0x7F < r then (r, 2) else (runeError, 1)
    | _ => (runeError, 1)
  else if 0xE0 ≤ b0.val ∧ b0.val < 0xF0 then
    match rest with
    | b1 :: b2 :: _ =>
      let r := (b0.val &&& 0x0F) <<< 12 ||| (b1.val &&& 0x3F) <<< 6 ||| (b2.val &&& 0x3F)
      if cont b1 ∧ cont b2 ∧ 0x7FF < r ∧ ¬ (0xD800 ≤ r ∧ r ≤ 0xDFFF) then (r, 3)
      else (runeError, 1)
    | _ => (runeError, 1)
  else if 0xF0 ≤ b0.val ∧ b0.val < 0xF8 then
    match rest with
    | b1 :: b2 :: b3 :: _ =>
      let r := (b0.val &&& 0x07) <<< 18 ||| (b1.val &&& 0x3F) <<< 12
                ||| (b2.val &&& 0x3F) <<< 6 ||| (b3.val &&& 0x3F)
      if cont b1 ∧ cont b2 ∧ cont b3 ∧ 0xFFFF < r ∧ r ≤ 0x10FFFF then (r, 4)
      else (runeError, 1)
    | _ => (runeError, 1)
  else (runeError, 1)

/-- The runes visited by `for _, c := range s`; `skip` is the number of leading
bytes that belong to the rune decoded last. -/
def runesFrom : Nat → GoString → List Rune
  | _, [] => []
  | skip + 1, _ :: rest => runesFrom skip rest
  | 0, b0 :: rest =>
    if b0.val < 0x80 then b0.val :: runesFrom 0 rest
    else (decoderune b0 rest).1 :: runesFrom ((decoderune b0 rest).2 - 1) rest

/-- The runes of a string, in order. -/
def runes (s : GoString) : List Rune := runesFrom 0 s

/-- Go `s < t` on strings: byte-wise lexicographic order. -/
def strLt : GoString → GoString → Bool
  | _, [] => false
  | [], _ :: _ => true
  | a :: as, b :: bs => decide (a < b) || (decide (a = b) && strLt as bs)

/-! ## Errors and the identifier type -/

inductive Error where
  | ErrOverflow
  | ErrInvalidTimestamp
  | ErrInvalidULID
  | ErrInvalidConfig
  | ErrInvalidEntropy
  /-- An error returned by the random source (`crypto/rand`). -/
  | ErrRandomSource
  deriving DecidableEq, Repr

deriving instance DecidableEq for Except

/-- The identifier: a wrapper of one `int64`. -/
structure UlidFlake where
  value : ℤ
  deriving DecidableEq, Repr

open Error

/-- Go `NewUlidFlake`: range-checked constructor. -/
def NewUlidFlake (value : ℤ) : Except Error UlidFlake :=
  if value < 0 ∨ value > 2 ^ 63 - 1 then .error ErrOverflow
  else .ok { value := value }

/-- Go `(*UlidFlake).Timestamp`: `(u.value >> 20) & MaxTimestamp`. -/
def UlidFlake.Timestamp (u : UlidFlake) : ℤ :=
  Int.land (u.value >>> (20 : ℕ)) MaxTimestamp

/-- Go `(*UlidFlake).Randomness`: `u.value & MaxRandomness`. -/
def UlidFlake.Randomness (u : UlidFlake) : ℤ :=
  Int.land u.value MaxRandomness

/-! ## Base-32 codec -/

/-- Go `encodeBase32`: the loop fills `encoded[length-1]`, ..., `encoded[0]` with
`encoding[value&31]`, shifting `value` right by 5 after each symbol.  The index
`value&31` is always within the alphabet. -/
def encodeBase32 (value : ℤ) : ℕ → GoString
  | 0 => []
  | length + 1 =>
    encodeBase32 (value >>> (5 : ℕ)) length ++ [encoding.getD (Int.land value 31).toNat 0]

/-- The inner loop of `decodeBase32`: the position of the first symbol of the
alphabet equal to `c` (counted from `i`), or `-1`. -/
def findIndex (c : Rune) : GoString → ℤ → ℤ
  | [], _ => -1
  | encChar :: more, i => if c = encChar.val then i else findIndex c more (i + 1)

/-- The outer loop of `decodeBase32` over the runes of the input. -/
def decodeLoop : List Rune → ℤ → Except Error ℤ
  | [], value => .ok value
  | c :: cs, value =>
    if findIndex c encoding 0 = -1 then .error ErrInvalidULID
    else decodeLoop cs (add64 (mul64 value 32) (findIndex c encoding 0))

/-- Go `decodeBase32`. -/
def decodeBase32 (encoded : GoString) : Except Error ℤ :=
  decodeLoop (runes encoded) 0

/-- Go `(*UlidFlake).bytes`: the last 7 of the 8 big-endian bytes of
`uint64(u.value)`. -/
def UlidFlake.bytes (u : UlidFlake) : List Byte :=
  let v : ℕ := (u.value % 2 ^ 64).toNat
  ([v >>> 56, v >>> 48, v >>> 40, v >>> 32, v >>> 24, v >>> 16, v >>> 8, v].map
    (fun x => (Fin.ofNat x : Byte))).tail

/-- Go `(*UlidFlake).String`. -/
def UlidFlake.String (u : UlidFlake) : GoString := encodeBase32 u.value UlidFlakeLen

/-- Go `(*UlidFlake).Int`. -/
def UlidFlake.Int (u : UlidFlake) : ℤ := u.value

/-- Go `Parse`. -/
def Parse (ulidFlakeString : GoString) : Except Error UlidFlake :=
  if ulidFlakeString.length ≠ UlidFlakeLen then .error ErrInvalidULID
  else
    match decodeBase32 ulidFlakeString with
    | .error err => .error err
    | .ok value => NewUlidFlake value

/-- Go `FromInt`. -/
def FromInt (value : ℤ) : Except Error UlidFlake :=
  if value < 0 ∨ value > 2 ^ 63 - 1 then .error ErrOverflow
  else NewUlidFlake value

/-- Go `FromStr`. -/
def FromStr (ulidFlakeString : GoString) : Except Error UlidFlake :=
  Parse ulidFlakeString

/-! ## Time -/

/-- A `time.Time` without monotonic reading (`time.Now().UTC()`,
`time.Unix(..).UTC()`): an instant, in nanoseconds since the Unix origin. -/
structure Time where
  unixNano : ℤ
  deriving DecidableEq, Repr

/-- Go `time.Unix(sec, 0)`. -/
def Time.Unix (sec : ℤ) : Time := { unixNano := sec * 1000000000 }

/-- Go `t.Sub(u)`: the `time.Duration` (nanoseconds, an `int64`) `t - u`,
saturated at the least and greatest duration. -/
def Time.Sub (t u : Time) : ℤ :=
  if t.unixNano - u.unixNano < -(2 ^ 63) then -(2 ^ 63)
  else if t.unixNano - u.unixNano > 2 ^ 63 - 1 then 2 ^ 63 - 1
  else t.unixNano - u.unixNano

/-- Go `d.Milliseconds()`: `int64(d) / 1e6`, Go division (truncated toward zero). -/
def Milliseconds (d : ℤ) : ℤ := Int.tdiv d 1000000

/-! ## Package state -/

/-- The package-level variables (`mutex` apart). -/
structure State where
  previousTimestamp : ℤ
  previousRandomness : ℤ
  epochTime : Time
  entropySize : ℤ
  deriving DecidableEq

/-- The variables as initialised at package load. -/
def State.init : State :=
  { previousTimestamp := 0
    previousRandomness := 0
    epochTime := Time.Unix DefaultEpochSec
    entropySize := MinEntropySize }

/-- Go `generateTimestamp`. -/
def generateTimestamp (s : State) (now : Time) : Except Error ℤ :=
  let timestamp := Milliseconds (now.Sub s.epochTime)
  if timestamp < MinTimestamp ∨ timestamp > MaxTimestamp then .error ErrOverflow
  else .ok timestamp

/-! ## Random source -/

/-- The random source seen by one call: read number `k` of the call either
fails or delivers as many bytes as are asked for (byte `j` of the read is
`f j`). -/
abbrev RandomSource := ℕ → Option (ℕ → Byte)

/-- Go `generateRandomBytes`, for read number `k` of the source. -/
def generateRandomBytes (rs : RandomSource) (k : ℕ) (size : ℕ) : Except Error (List Byte) :=
  match rs k with
  | none => .error ErrRandomSource
  | some f => .ok ((List.range size).map f)

/-- Go `binary.BigEndian.Uint32`.  The package calls it on a 4-byte slice only
(one zero byte followed by the 3 bytes of `generateRandomBytes`), so no index
is out of range; a missing byte reads as 0 here. -/
def bigEndianUint32 (b : List Byte) : ℕ :=
  (b.getD 3 0).val ||| (b.getD 2 0).val <<< 8 ||| (b.getD 1 0).val <<< 16
    ||| (b.getD 0 0).val <<< 24

/-- Go `generateRandomness`. -/
def generateRandomness (randomFunc : ℕ → Except Error (List Byte)) : Except Error ℤ :=
  match randomFunc MaxEntropySize.toNat with
  | .error err => .error err
  | .ok rnd => .ok ((bigEndianUint32 ((0 : Byte) :: rnd) &&& MaxRandomness.toNat : ℕ) : ℤ)

/-- Go `generateEntropy`. -/
def generateEntropy (size : ℤ) (randomFunc : ℕ → Except Error (List Byte)) : Except Error ℤ :=
  if size < MinEntropySize ∨ size > MaxEntropySize then .error ErrInvalidEntropy
  else
    match randomFunc size.toNat with
    | .error err => .error err
    | .ok rnd => .ok (rnd.foldl (fun entropy b => Int.lor (shl64 entropy 8) (b.val : ℤ)) 0)

/-! ## Generation -/

/-- The loop `for entropy <= 0 { entropy, err = generateEntropy(..) .. }` of
`New`, from read number `k` on: `none` when the fuel is used up. -/
def entropyLoop (size : ℤ) (rs : RandomSource) : ℕ → ℕ → Option (Except Error ℤ)
  | 0, _ => none
  | fuel + 1, k =>
    match generateEntropy size (generateRandomBytes rs k) with
    | .error err => some (.error err)
    | .ok entropy => if entropy ≤ 0 then entropyLoop size rs fuel (k + 1) else some (.ok entropy)

/-- The packing `(signBit << 63) | (timestamp << 20) | randomness`, `signBit = 0`. -/
def combine (timestamp randomness : ℤ) : ℤ :=
  Int.lor (Int.lor (shl64 0 63) (shl64 timestamp 20)) randomness

/-- The end of `New`, after the randomness is chosen: the state is updated,
then the value is packed and checked. -/
def emit (s : State) (timestamp randomness : ℤ) : Except Error UlidFlake × State :=
  let s1 : State := { s with previousTimestamp := timestamp, previousRandomness := randomness }
  if combine timestamp randomness > 2 ^ 63 - 1 then (.error ErrOverflow, s1)
  else (NewUlidFlake (combine timestamp randomness), s1)

/-- Go `New`, at clock reading `now` with random source `rs`: the result and the
state left behind, or `none` when the redraw loop has not ended within `fuel`
iterations. -/
def New (s : State) (now : Time) (rs : RandomSource) (fuel : ℕ) :
    Option (Except Error UlidFlake × State) :=
  match generateTimestamp s now with
  | .error err => some (.error err, s)
  | .ok timestamp =>
    if timestamp < s.previousTimestamp then some (.error ErrInvalidTimestamp, s)
    else if timestamp = s.previousTimestamp then
      match entropyLoop s.entropySize rs fuel 0 with
      | none => none
      | some (.error err) => some (.error err, s)
      | some (.ok entropy) =>
        if add64 s.previousRandomness entropy > MaxRandomness then some (.error ErrOverflow, s)
        else some (emit s timestamp (add64 s.previousRandomness entropy))
    else
      match generateRandomness (generateRandomBytes rs 0) with
      | .error err => some (.error err, s)
      | .ok randomness => some (emit s timestamp randomness)

/-- One call of a run: the configuration in effect, the clock reading, the
random source and the fuel of the call. -/
structure Call where
  epochTime : Time
  entropySize : ℤ
  now : Time
  random : RandomSource
  fuel : ℕ

/-- The integers returned by the successful calls of a sequence of `New`
calls, in order.  A call that does not return ends the run (it holds the
mutex for ever). -/
def runNew : State → List Call → List ℤ
  | _, [] => []
  | s, c :: cs =>
    match New { s with epochTime := c.epochTime, entropySize := c.entropySize }
        c.now c.random c.fuel with
    | none => []
    | some (.ok u, s1) => u.Int :: runNew s1 cs
    | some (.error _, s1) => runNew s1 cs

/-! ## Converters and configuration -/

/-- Go `FromUnixEpochTime`, with random source `rs`: the result and the state
left behind.  The function refers to no package-level variable: the result
does not depend on `s`, and `s` is returned as it was. -/
def FromUnixEpochTime (s : State) (unixTimeSec : ℤ) (rs : RandomSource) :
    Except Error UlidFlake × State :=
  let timestamp := sub64 (mul64 unixTimeSec 1000) (int64 (DefaultEpochSec * 1000))
  if timestamp < MinTimestamp ∨ timestamp > MaxTimestamp then (.error ErrOverflow, s)
  else
    match generateRandomness (generateRandomBytes rs 0) with
    | .error err => (.error err, s)
    | .ok randomness =>
      if combine timestamp randomness > 2 ^ 63 - 1 then (.error ErrOverflow, s)
      else (NewUlidFlake (combine timestamp randomness), s)

/-- The draft configuration filled by the options. -/
structure config where
  epochTime : Time
  entropySize : ℤ
  deriving DecidableEq

/-- Go `Option`, a `func(*config) error`: the draft after the call, or the
error. -/
abbrev ConfigOption := config → Except Error config

/-- Go `WithEpochTime`. -/
def WithEpochTime (epoch : Time) : ConfigOption := fun cfg =>
  .ok { cfg with epochTime := epoch }

/-- Go `WithEntropySize`. -/
def WithEntropySize (entropy : ℤ) : ConfigOption := fun cfg =>
  if entropy < MinEntropySize ∨ entropy > MaxEntropySize then .error ErrInvalidEntropy
  else .ok { cfg with entropySize := entropy }

/-- The loop of `SetConfig` over the options: it stops at the first error. -/
def applyOptions : List ConfigOption → config → Except Error config
  | [], cfg => .ok cfg
  | opt :: opts, cfg =>
    match opt cfg with
    | .error err => .error err
    | .ok cfg1 => applyOptions opts cfg1

/-- Go `SetConfig`: the options fill a draft that starts from the defaults; the
package variables are written only when no option has failed. -/
def SetConfig (s : State) (opts : List ConfigOption) : Except Error Unit × State :=
  match applyOptions opts
      { epochTime := Time.Unix DefaultEpochSec, entropySize := MinEntropySize } with
  | .error err => (.error err, s)
  | .ok cfg => (.ok (), { s with epochTime := cfg.epochTime, entropySize := cfg.entropySize })

/-- The package variables between the two assignments that end `SetConfig`:
`epochTime = cfg.epochTime` is done, `entropySize = cfg.entropySize` is not
yet; `none` when an option has failed (nothing is written then).  `SetConfig`
takes no lock, so a `New` running in another goroutine can see this state. -/
def SetConfigEpochWritten (s : State) (opts : List ConfigOption) : Option State :=
  match applyOptions opts
      { epochTime := Time.Unix DefaultEpochSec, entropySize := MinEntropySize } with
  | .error _ => none
  | .ok cfg => some { s with epochTime := cfg.epochTime }

/-! ## Notions used to state the properties -/

/-- The states of the package variables that a program can reach: from the
initial state by calls of `New`, `SetConfig` and `FromUnixEpochTime`. -/
inductive Reachable : State → Prop
  | init : Reachable State.init
  | new (s s1 : State) (now : Time) (rs : RandomSource) (fuel : ℕ)
      (res : Except Error UlidFlake) :
      Reachable s → New s now rs fuel = some (res, s1) → Reachable s1
  | setConfig (s : State) (opts : List ConfigOption) :
      Reachable s → Reachable (SetConfig s opts).2
  | fromUnixEpochTime (s : State) (unixTimeSec : ℤ) (rs : RandomSource) :
      Reachable s → Reachable (FromUnixEpochTime s unixTimeSec rs).2

/-- The sequencer fields are within their bit fields. -/
def State.Valid (s : State) : Prop :=
  0 ≤ s.previousTimestamp ∧ s.previousTimestamp ≤ MaxTimestamp ∧
    0 ≤ s.previousRandomness ∧ s.previousRandomness ≤ MaxRandomness

/-- The integer written by a sequence of bytes, most significant byte first. -/
def bigEndianValue (bs : List Byte) : ℤ := bs.foldl (fun acc b => acc * 256 + (b.val : ℤ)) 0

/-- The `n` low-order bytes of `v`, most significant first. -/
def bigEndianBytes (v : ℕ) : ℕ → List Byte
  | 0 => []
  | n + 1 => bigEndianBytes (v / 256) n ++ [(Fin.ofNat v : Byte)]

/-- A random source given by the list of its reads: read `k` delivers the bytes
of the `k`-th list (followed by zero bytes) and fails when there is none. -/
def listSource (draws : List (List Byte)) : RandomSource := fun k =>
  match draws[k]? with
  | none => none
  | some bs => some (fun j => bs.getD j 0)

/-- The instant 5 ms after the default epoch. -/
def exampleNow : Time := { unixNano := 1704067200005000000 }

/-- The initial state after an identifier with timestamp 5 and randomness
`0x010203` was emitted. -/
def exampleState : State :=
  { State.init with previousTimestamp := 5, previousRandomness := 66051 }

/-- The unbounded base-32 value of a string over the alphabet, most significant
symbol first. -/
def base32Value (s : GoString) : ℤ :=
  s.foldl (fun acc b => acc * 32 + findIndex b.val encoding 0) 0

end Ulidflake

/-! # Proofs -/

namespace Ulidflake

open Error

/-! ## Two's-complement operations as arithmetic -/

theorem nat_ldiff_mask (k n : ℕ) : Nat.ldiff (2 ^ k - 1) n = 2 ^ k - 1 - n % 2 ^ k := by
  apply Nat.eq_of_testBit_eq
  intro i
  have h : n % 2 ^ k < 2 ^ k := Nat.mod_lt _ (by positivity)
  have e : 2 ^ k - 1 - n % 2 ^ k = 2 ^ k - (n % 2 ^ k + 1) := by omega
  rw [Nat.testBit_ldiff, e, Nat.testBit_two_pow_sub_succ h, Nat.testBit_two_pow_sub_one,
    Nat.testBit_mod_two_pow]
  by_cases hi : i < k <;> simp [hi]

theorem land_mask (x : ℤ) (k : ℕ) : Int.land x ((2 ^ k - 1 : ℕ) : ℤ) = x % 2 ^ k := by
  cases x with
  | ofNat n =>
    show ((n &&& (2 ^ k - 1) : ℕ) : ℤ) = (n : ℤ) % 2 ^ k
    rw [Nat.and_pow_two_sub_one_eq_mod]
    push_cast
    rfl
  | negSucc n =>
    show ((Nat.ldiff (2 ^ k - 1) n : ℕ) : ℤ) = Int.negSucc n % 2 ^ k
    rw [nat_ldiff_mask]
    have h : n % 2 ^ k < 2 ^ k := Nat.mod_lt _ (by positivity)
    have hp : (0 : ℤ) < 2 ^ k := by positivity
    have e : Int.negSucc n = (2 ^ k - 1 - (n % 2 ^ k : ℕ) : ℤ) + (2 ^ k : ℤ) * (-(n / 2 ^ k : ℕ) - 1) := by
      have := Nat.div_add_mod n (2 ^ k)
      rw [Int.negSucc_eq]
      have h2 : (n : ℤ) = (2 ^ k : ℤ) * ((n / 2 ^ k : ℕ) : ℤ) + ((n % 2 ^ k : ℕ) : ℤ) := by
        exact_mod_cast this.symm
      linarith
    rw [e, Int.add_mul_emod_self_left, Int.emod_eq_of_lt]
    · have h3 : ((2 ^ k - 1 - n % 2 ^ k : ℕ) : ℤ) = 2 ^ k - 1 - ((n % 2 ^ k : ℕ) : ℤ) := by
        have : n % 2 ^ k + (2 ^ k - 1 - n % 2 ^ k) + 1 = 2 ^ k := by omega
        have h4 : ((n % 2 ^ k : ℕ) : ℤ) + ((2 ^ k - 1 - n % 2 ^ k : ℕ) : ℤ) + 1 = 2 ^ k := by
          exact_mod_cast this
        linarith
      exact h3
    · have : ((n % 2 ^ k : ℕ) : ℤ) < 2 ^ k := by exact_mod_cast h
      linarith
    · have : (0 : ℤ) ≤ ((n % 2 ^ k : ℕ) : ℤ) := Int.natCast_nonneg _
      linarith

theorem lor_add (k a r : ℕ) (h : r < 2 ^ k) :
    Int.lor ((a : ℤ) * 2 ^ k) (r : ℤ) = (a : ℤ) * 2 ^ k + r := by
  have e : (a : ℤ) * 2 ^ k = ((2 ^ k * a : ℕ) : ℤ) := by push_cast; ring
  rw [e]
  show (((2 ^ k * a) ||| r : ℕ) : ℤ) = _
  rw [← Nat.mul_add_lt_is_or h]
  push_cast
  ring

theorem lor_neg (a : ℕ) (r : ℤ) (h : r < 0) : Int.lor (a : ℤ) r < 0 := by
  cases r with
  | ofNat n => exact absurd h (by simp)
  | negSucc n => exact Int.negSucc_lt_zero _

/-! ## Codec -/

theorem land_31 (x : ℤ) : Int.land x 31 = x % 32 := by
  have := land_mask x 5
  norm_num at this
  exact this

theorem shiftRight_5 (x : ℤ) : x >>> (5 : ℕ) = x / 32 := by
  rw [Int.shiftRight_eq_div_pow]; norm_num

theorem encodeBase32_succ (v : ℤ) (n : ℕ) :
    encodeBase32 v (n + 1) = encodeBase32 (v / 32) n ++ [encoding.getD (v % 32).toNat 0] := by
  rw [encodeBase32, land_31, shiftRight_5]

theorem encodeBase32_length (v : ℤ) (n : ℕ) : (encodeBase32 v n).length = n := by
  induction n generalizing v with
  | zero => rfl
  | succ n ih => rw [encodeBase32_succ, List.length_append, ih]; rfl

theorem findIndex_symbol : ∀ d : Fin 32, findIndex (encoding.getD d.val 0).val encoding 0 = d.val := by
  decide

theorem symbol_lt : ∀ d e : Fin 32, (encoding.getD d.val 0 < encoding.getD e.val 0) ↔ d < e := by
  decide

theorem symbol_ascii : ∀ d : Fin 32, (encoding.getD d.val 0).val < 128 := by
  decide

/-- The digit `v % 32` as an index of the alphabet. -/
theorem digit_lt (v : ℤ) : (v % 32).toNat < 32 := by
  have h1 := Int.emod_nonneg v (show (32 : ℤ) ≠ 0 by norm_num)
  have h2 := Int.emod_lt_of_pos v (show (0 : ℤ) < 32 by norm_num)
  omega

theorem digit_cast (v : ℤ) : (((v % 32).toNat : ℕ) : ℤ) = v % 32 := by
  have h1 := Int.emod_nonneg v (show (32 : ℤ) ≠ 0 by norm_num)
  omega

/-- Every byte of an encoded string is an ASCII byte. -/
theorem encodeBase32_ascii (v : ℤ) (n : ℕ) : ∀ b ∈ encodeBase32 v n, b.val < 128 := by
  induction n generalizing v with
  | zero => intro b hb; simp [encodeBase32] at hb
  | succ n ih =>
    intro b hb
    rw [encodeBase32_succ, List.mem_append] at hb
    rcases hb with hb | hb
    · exact ih _ b hb
    · rw [List.mem_singleton] at hb
      rw [hb]
      exact symbol_ascii ⟨_, digit_lt v⟩

/-- On ASCII strings a `range` loop visits the bytes. -/
theorem runes_ascii (s : GoString) (h : ∀ b ∈ s, b.val < 128) :
    runes s = s.map (fun b => b.val) := by
  unfold runes
  induction s with
  | nil => rfl
  | cons b rest ih =>
    have hb : b.val < 0x80 := h b (List.mem_cons_self _ _)
    rw [runesFrom, if_pos hb, ih (fun c hc => h c (List.mem_cons_of_mem _ hc))]
    rfl

theorem decodeLoop_append (l1 l2 : List Rune) (acc : ℤ) :
    decodeLoop (l1 ++ l2) acc =
      match decodeLoop l1 acc with
      | .error err => .error err
      | .ok value => decodeLoop l2 value := by
  induction l1 generalizing acc with
  | nil => rfl
  | cons c cs ih =>
    rw [List.cons_append, decodeLoop, decodeLoop]
    split
    · rfl
    · exact ih _

theorem int64_of_range (x : ℤ) (h0 : -(2 ^ 63) ≤ x) (h1 : x < 2 ^ 63) : int64 x = x := by
  unfold int64
  rw [Int.emod_eq_of_lt (by linarith) (by linarith)]
  ring

/-- Decoding what `encodeBase32` wrote gives the value back. -/
theorem decodeLoop_encodeBase32 (n : ℕ) (v : ℤ) (h0 : 0 ≤ v) (h1 : v < 32 ^ n)
    (h2 : v < 2 ^ 63) :
    decodeLoop ((encodeBase32 v n).map (fun b => b.val)) 0 = .ok v := by
  induction n generalizing v with
  | zero =>
    have : v = 0 := by
      have : v < 1 := by simpa using h1
      omega
    subst this; rfl
  | succ n ih =>
    have hq0 : 0 ≤ v / 32 := Int.ediv_nonneg h0 (by norm_num)
    have hq1 : v / 32 < 32 ^ n := by
      rw [pow_succ] at h1
      exact Int.ediv_lt_of_lt_mul (by norm_num) h1
    have hq2 : v / 32 < 2 ^ 63 := by omega
    rw [encodeBase32_succ, List.map_append, decodeLoop_append, ih _ hq0 hq1 hq2]
    have hs := findIndex_symbol ⟨_, digit_lt v⟩
    simp only [] at hs
    simp only [List.map_cons, List.map_nil, decodeLoop]
    rw [hs, digit_cast]
    have hm0 := Int.emod_nonneg v (show (32 : ℤ) ≠ 0 by norm_num)
    have hm1 := Int.emod_lt_of_pos v (show (0 : ℤ) < 32 by norm_num)
    rw [if_neg (by omega)]
    congr 1
    unfold add64 mul64
    rw [int64_of_range (v / 32 * 32) (by omega) (by omega),
      int64_of_range _ (by omega) (by omega)]
    omega

theorem decodeBase32_encodeBase32 (v : ℤ) (h0 : 0 ≤ v) (h1 : v ≤ 2 ^ 63 - 1) :
    decodeBase32 (encodeBase32 v 13) = .ok v := by
  unfold decodeBase32
  rw [runes_ascii _ (encodeBase32_ascii v 13)]
  exact decodeLoop_encodeBase32 13 v h0 (by norm_num; omega) (by omega)

/-! ## String order -/

theorem strLt_append_singleton (a b : GoString) (x y : Byte) (h : a.length = b.length) :
    strLt (a ++ [x]) (b ++ [y]) = (strLt a b || (decide (a = b) && decide (x < y))) := by
  induction a generalizing b with
  | nil =>
    cases b with
    | nil => simp [strLt]
    | cons b0 bs => simp at h
  | cons a0 as ih =>
    cases b with
    | nil => simp at h
    | cons b0 bs =>
      have hl : as.length = bs.length := by simpa using h
      rw [List.cons_append, List.cons_append, strLt, strLt, ih bs hl]
      by_cases h1 : a0 < b0
      · simp [h1]
      · by_cases h2 : a0 = b0
        · simp [h2]
        · simp [h1, h2]

theorem symbol_inj : ∀ d e : Fin 32, encoding.getD d.val 0 = encoding.getD e.val 0 → d = e := by
  decide

theorem toNat_mod32_inj (u v : ℤ) (h : (u % 32).toNat = (v % 32).toNat) : u % 32 = v % 32 := by
  have := digit_cast u
  have := digit_cast v
  omega

theorem encodeBase32_inj (n : ℕ) (u v : ℤ) (hu0 : 0 ≤ u) (hu1 : u < 32 ^ n) (hv0 : 0 ≤ v)
    (hv1 : v < 32 ^ n) (h : encodeBase32 u n = encodeBase32 v n) : u = v := by
  induction n generalizing u v with
  | zero =>
    have : u < 1 := by simpa using hu1
    have : v < 1 := by simpa using hv1
    omega
  | succ n ih =>
    rw [encodeBase32_succ, encodeBase32_succ] at h
    have hl : (encodeBase32 (u / 32) n).length = (encodeBase32 (v / 32) n).length := by
      rw [encodeBase32_length, encodeBase32_length]
    obtain ⟨h1, h2⟩ := List.append_inj h hl
    rw [pow_succ] at hu1 hv1
    have hq := ih (u / 32) (v / 32) (Int.ediv_nonneg hu0 (by norm_num))
      (Int.ediv_lt_of_lt_mul (by norm_num) hu1) (Int.ediv_nonneg hv0 (by norm_num))
      (Int.ediv_lt_of_lt_mul (by norm_num) hv1) h1
    have hs := symbol_inj ⟨_, digit_lt u⟩ ⟨_, digit_lt v⟩ (by simpa using h2)
    have hm := toNat_mod32_inj u v (by simpa using hs)
    omega

theorem strLt_encodeBase32 (n : ℕ) (u v : ℤ) (hu0 : 0 ≤ u) (hu1 : u < 32 ^ n) (hv0 : 0 ≤ v)
    (hv1 : v < 32 ^ n) : strLt (encodeBase32 u n) (encodeBase32 v n) = decide (u < v) := by
  induction n generalizing u v with
  | zero =>
    have : u < 1 := by simpa using hu1
    have : v < 1 := by simpa using hv1
    have hu : u = 0 := by omega
    have hv : v = 0 := by omega
    subst hu hv
    simp [encodeBase32, strLt]
  | succ n ih =>
    rw [encodeBase32_succ, encodeBase32_succ, strLt_append_singleton _ _ _ _
      (by rw [encodeBase32_length, encodeBase32_length])]
    rw [pow_succ] at hu1 hv1
    have hqu0 : 0 ≤ u / 32 := Int.ediv_nonneg hu0 (by norm_num)
    have hqv0 : 0 ≤ v / 32 := Int.ediv_nonneg hv0 (by norm_num)
    have hqu1 : u / 32 < 32 ^ n := Int.ediv_lt_of_lt_mul (by norm_num) hu1
    have hqv1 : v / 32 < 32 ^ n := Int.ediv_lt_of_lt_mul (by norm_num) hv1
    rw [ih _ _ hqu0 hqu1 hqv0 hqv1]
    have hsym := symbol_lt ⟨_, digit_lt u⟩ ⟨_, digit_lt v⟩
    simp only [Fin.mk_lt_mk] at hsym
    have hcu := digit_cast u
    have hcv := digit_cast v
    by_cases hq : u / 32 = v / 32
    · have he : encodeBase32 (u / 32) n = encodeBase32 (v / 32) n := by rw [hq]
      simp only [he, decide_True, Bool.true_and, hq, lt_self_iff_false, decide_False,
        Bool.false_or]
      rw [decide_eq_decide, hsym]
      omega
    · have hne : encodeBase32 (u / 32) n ≠ encodeBase32 (v / 32) n := fun he =>
        hq (encodeBase32_inj n _ _ hqu0 hqu1 hqv0 hqv1 he)
      simp only [hne, decide_False, Bool.false_and, Bool.or_false]
      rw [decide_eq_decide]
      omega

/-! ## Parsing -/

/-- The search `findIndex` counts up from a non-negative start, so `-1` means "not found". -/
theorem findIndex_eq_neg_one (c : Rune) (l : GoString) (i : ℤ) (hi : 0 ≤ i) :
    (findIndex c l i = -1 ↔ c ∉ l.map (fun b => b.val)) ∧ (findIndex c l i = -1 ∨ i ≤ findIndex c l i) := by
  induction l generalizing i with
  | nil => simp [findIndex]
  | cons e es ih =>
    rw [findIndex]
    by_cases h : c = e.val
    · rw [if_pos h]
      constructor
      · constructor
        · intro h1; omega
        · intro h1; exact absurd (by simp [h]) h1
      · right; exact le_refl _
    · rw [if_neg h]
      obtain ⟨h1, h2⟩ := ih (i + 1) (by omega)
      constructor
      · rw [h1]; simp [h]
      · rcases h2 with h2 | h2
        · left; exact h2
        · right; omega

theorem findIndex_encoding (c : Rune) :
    findIndex c encoding 0 = -1 ↔ c ∉ encoding.map (fun b => b.val) :=
  (findIndex_eq_neg_one c encoding 0 (le_refl _)).1

/-- The only error of the decoding loop is `ErrInvalidULID`, and a rune outside
the alphabet causes it. -/
theorem decodeLoop_error_of_mem (l : List Rune) (acc : ℤ)
    (h : ∃ c ∈ l, c ∉ encoding.map (fun b => b.val)) :
    decodeLoop l acc = .error ErrInvalidULID := by
  induction l generalizing acc with
  | nil => simp at h
  | cons c cs ih =>
    rw [decodeLoop]
    by_cases hc : findIndex c encoding 0 = -1
    · rw [if_pos hc]
    · rw [if_neg hc]
      apply ih
      obtain ⟨d, hd, hd2⟩ := h
      rcases List.mem_cons.mp hd with hd | hd
      · exact absurd ((findIndex_encoding c).mpr (hd ▸ hd2)) hc
      · exact ⟨d, hd, hd2⟩

theorem encoding_ascii : ∀ c ∈ encoding.map (fun b => b.val), c < 128 := by
  decide

/-- A rune decoded from a non-ASCII first byte is not an ASCII rune. -/
theorem decoderune_ge (b0 : Byte) (rest : List Byte) : (128 : ℕ) ≤ (decoderune b0 rest).1 := by
  unfold decoderune
  simp only []
  split_ifs with h1 h2 h3
  · split
    · split_ifs with h
      · exact h.2
      · simp [runeError]
    · simp [runeError]
  · split
    · split_ifs with h
      · exact le_trans (by norm_num) (le_of_lt h.2.2.1)
      · simp [runeError]
    · simp [runeError]
  · split
    · split_ifs with h
      · exact le_trans (by norm_num) (le_of_lt h.2.2.2.1)
      · simp [runeError]
    · simp [runeError]
  · simp [runeError]

/-- A string with a byte outside the alphabet has a rune outside the alphabet. -/
theorem runes_bad (s : GoString) (h : ∃ b ∈ s, b ∉ encoding) :
    ∃ c ∈ runes s, c ∉ encoding.map (fun b => b.val) := by
  unfold runes
  induction s with
  | nil => simp at h
  | cons b0 rest ih =>
    rw [runesFrom]
    by_cases hb : b0.val < 0x80
    · rw [if_pos hb]
      by_cases hin : b0 ∈ encoding
      · obtain ⟨b, hb1, hb2⟩ := h
        rcases List.mem_cons.mp hb1 with hb1 | hb1
        · exact absurd (hb1 ▸ hin) hb2
        · obtain ⟨c, hc1, hc2⟩ := ih ⟨b, hb1, hb2⟩
          exact ⟨c, List.mem_cons_of_mem _ hc1, hc2⟩
      · refine ⟨b0.val, List.mem_cons_self _ _, ?_⟩
        intro hm
        obtain ⟨e, he1, he2⟩ := List.mem_map.mp hm
        exact hin (Fin.val_injective he2 ▸ he1)
    · rw [if_neg hb]
      refine ⟨(decoderune b0 rest).1, List.mem_cons_self _ _, ?_⟩
      intro hm
      have h1 : (decoderune b0 rest).1 < (128 : ℕ) := encoding_ascii _ hm
      have h2 := decoderune_ge b0 rest
      exact absurd h1 (not_lt.mpr h2)

theorem Parse_invalid_length (s : GoString) (h : s.length ≠ 13) :
    Parse s = .error ErrInvalidULID := by
  unfold Parse
  rw [if_pos (by simpa [UlidFlakeLen] using h)]

theorem Parse_invalid_char (s : GoString) (h : ∃ b ∈ s, b ∉ encoding) :
    Parse s = .error ErrInvalidULID := by
  unfold Parse
  split_ifs with hl
  · rfl
  · unfold decodeBase32
    rw [decodeLoop_error_of_mem _ _ (runes_bad s h)]

/-! ## Bit layout -/

theorem encodeBase32_getElem? (n : ℕ) (v : ℤ) (i : ℕ) (hi : i < n) :
    (encodeBase32 v n)[i]? = encoding[(Int.land (v >>> (5 * (n - 1 - i))) 31).toNat]? := by
  induction n generalizing v with
  | zero => omega
  | succ n ih =>
    rw [encodeBase32]
    by_cases h : i < n
    · rw [List.getElem?_append_left (by rw [encodeBase32_length]; exact h), ih _ h,
        ← Int.shiftRight_add]
      have e : 5 + 5 * (n - 1 - i) = 5 * (n + 1 - 1 - i) := by omega
      rw [e]
    · have e : i = n := by omega
      subst e
      rw [List.getElem?_append_right (by rw [encodeBase32_length]), encodeBase32_length]
      have hlt : (Int.land v 31).toNat < encoding.length := by
        rw [land_31]; exact digit_lt v
      have hz : v >>> (0 : ℕ) = v := by cases v <;> rfl
      simp only [Nat.sub_self, add_tsub_cancel_right, mul_zero, List.getElem?_cons_zero, hz]
      rw [List.getD_eq_getElem?_getD, List.getElem?_eq_getElem hlt]
      rfl

theorem encodeBase32_mem (v : ℤ) (n : ℕ) : ∀ b ∈ encodeBase32 v n, b ∈ encoding := by
  induction n generalizing v with
  | zero => intro b hb; simp [encodeBase32] at hb
  | succ n ih =>
    intro b hb
    rw [encodeBase32_succ, List.mem_append] at hb
    rcases hb with hb | hb
    · exact ih _ b hb
    · rw [List.mem_singleton] at hb
      rw [hb, List.getD_eq_getElem?_getD, List.getElem?_eq_getElem (show _ < encoding.length from digit_lt v)]
      exact List.getElem_mem _

theorem Timestamp_eq (v : ℤ) : UlidFlake.Timestamp ⟨v⟩ = v / 2 ^ 20 % 2 ^ 43 := by
  unfold UlidFlake.Timestamp
  have := land_mask (v >>> (20 : ℕ)) 43
  rw [Int.shiftRight_eq_div_pow] at this ⊢
  norm_num [MaxTimestamp, TimestampSize] at this ⊢
  exact this

theorem Randomness_eq (v : ℤ) : UlidFlake.Randomness ⟨v⟩ = v % 2 ^ 20 := by
  unfold UlidFlake.Randomness
  have := land_mask v 20
  norm_num [MaxRandomness, RandomnessSize] at this ⊢
  exact this

theorem lor_zero_left (x : ℤ) : Int.lor 0 x = x := by
  cases x with
  | ofNat n => show ((0 ||| n : ℕ) : ℤ) = _; simp
  | negSucc n =>
    show Int.negSucc (Nat.ldiff n 0) = _
    congr 1
    apply Nat.eq_of_testBit_eq
    intro i
    rw [Nat.testBit_ldiff]
    simp

theorem combine_eq_lor (t r : ℤ) : combine t r = Int.lor (shl64 t 20) r := by
  unfold combine
  have : shl64 0 63 = 0 := by decide
  rw [this, lor_zero_left]

theorem shl64_timestamp (t : ℤ) (h0 : 0 ≤ t) (h1 : t ≤ MaxTimestamp) :
    shl64 t 20 = t * 2 ^ 20 := by
  unfold shl64
  norm_num [MaxTimestamp, TimestampSize] at h1
  exact int64_of_range _ (by omega) (by omega)

/-- In range, the packing is `timestamp * 2^20 + randomness`. -/
theorem combine_eq (t r : ℤ) (ht0 : 0 ≤ t) (ht1 : t ≤ MaxTimestamp) (hr0 : 0 ≤ r)
    (hr1 : r ≤ MaxRandomness) : combine t r = t * 2 ^ 20 + r := by
  rw [combine_eq_lor, shl64_timestamp t ht0 ht1]
  norm_num [MaxRandomness, RandomnessSize] at hr1
  obtain ⟨a, rfl⟩ := Int.eq_ofNat_of_zero_le ht0
  obtain ⟨b, rfl⟩ := Int.eq_ofNat_of_zero_le hr0
  exact lor_add 20 a b (by omega)

/-- A negative randomness makes the packed value negative. -/
theorem combine_neg (t r : ℤ) (ht0 : 0 ≤ t) (ht1 : t ≤ MaxTimestamp) (hr : r < 0) :
    combine t r < 0 := by
  rw [combine_eq_lor, shl64_timestamp t ht0 ht1]
  obtain ⟨a, rfl⟩ := Int.eq_ofNat_of_zero_le ht0
  have e : (a : ℤ) * 2 ^ 20 = ((a * 2 ^ 20 : ℕ) : ℤ) := by push_cast; ring
  rw [e]
  exact lor_neg _ r hr

/-! ## Timestamp, randomness and entropy -/

theorem generateTimestamp_ok (s : State) (now : Time) (t : ℤ)
    (h : generateTimestamp s now = .ok t) :
    t = Milliseconds (now.Sub s.epochTime) ∧ 0 ≤ t ∧ t ≤ MaxTimestamp := by
  unfold generateTimestamp at h
  simp only [] at h
  split_ifs at h with hc
  cases h
  simp only [MinTimestamp] at hc
  refine ⟨rfl, ?_, ?_⟩ <;> omega

theorem generateTimestamp_of_range (s : State) (now : Time)
    (h0 : 0 ≤ Milliseconds (now.Sub s.epochTime))
    (h1 : Milliseconds (now.Sub s.epochTime) ≤ MaxTimestamp) :
    generateTimestamp s now = .ok (Milliseconds (now.Sub s.epochTime)) := by
  unfold generateTimestamp
  simp only [MinTimestamp]
  rw [if_neg (by omega)]

theorem generateRandomness_ok (f : ℕ → Except Error (List Byte)) (r : ℤ)
    (h : generateRandomness f = .ok r) : 0 ≤ r ∧ r ≤ MaxRandomness := by
  unfold generateRandomness at h
  split at h
  · cases h
  · rename_i rnd _
    cases h
    constructor
    · exact Int.natCast_nonneg _
    · have : bigEndianUint32 ((0 : Byte) :: rnd) &&& MaxRandomness.toNat ≤ MaxRandomness.toNat :=
        Nat.and_le_right
      have e : MaxRandomness.toNat = 1048575 := by decide
      have e2 : MaxRandomness = 1048575 := by decide
      rw [e] at this
      rw [e2]
      exact_mod_cast this

/-- The fold of `generateEntropy` computes the big-endian value as long as it
stays within 63 bits. -/
theorem entropy_fold (l : List Byte) (acc : ℤ) (h0 : 0 ≤ acc)
    (h1 : acc * 256 ^ l.length + 256 ^ l.length ≤ 2 ^ 63) :
    l.foldl (fun entropy b => Int.lor (shl64 entropy 8) (b.val : ℤ)) acc
      = l.foldl (fun acc b => acc * 256 + (b.val : ℤ)) acc := by
  induction l generalizing acc with
  | nil => rfl
  | cons b bs ih =>
    rw [List.foldl_cons, List.foldl_cons]
    have hb : (b.val : ℤ) < 256 := by exact_mod_cast b.isLt
    have hb0 : (0 : ℤ) ≤ (b.val : ℤ) := Int.natCast_nonneg _
    have hp : (1 : ℤ) ≤ 256 ^ bs.length := one_le_pow₀ (by norm_num)
    rw [List.length_cons, pow_succ] at h1
    have hacc : acc * 256 + 256 ≤ 2 ^ 63 := by nlinarith
    have e : Int.lor (shl64 acc 8) (b.val : ℤ) = acc * 256 + (b.val : ℤ) := by
      unfold shl64
      rw [int64_of_range _ (by omega) (by omega)]
      obtain ⟨a, rfl⟩ := Int.eq_ofNat_of_zero_le h0
      exact lor_add 8 a b.val b.isLt
    rw [e]
    apply ih
    · omega
    · nlinarith

theorem bigEndianValue_fold_bound (l : List Byte) (acc : ℤ) (h0 : 0 ≤ acc) :
    0 ≤ l.foldl (fun acc b => acc * 256 + (b.val : ℤ)) acc ∧
      l.foldl (fun acc b => acc * 256 + (b.val : ℤ)) acc < (acc + 1) * 256 ^ l.length := by
  induction l generalizing acc with
  | nil => simp [h0]
  | cons b bs ih =>
    rw [List.foldl_cons, List.length_cons, pow_succ]
    have hb : (b.val : ℤ) < 256 := by exact_mod_cast b.isLt
    have hb0 : (0 : ℤ) ≤ (b.val : ℤ) := Int.natCast_nonneg _
    obtain ⟨i1, i2⟩ := ih (acc * 256 + (b.val : ℤ)) (by omega)
    refine ⟨i1, lt_of_lt_of_le i2 ?_⟩
    have hp : (0 : ℤ) ≤ 256 ^ bs.length := by positivity
    nlinarith

theorem bigEndianValue_bound (l : List Byte) :
    0 ≤ bigEndianValue l ∧ bigEndianValue l < 256 ^ l.length := by
  have := bigEndianValue_fold_bound l 0 (le_refl _)
  simpa [bigEndianValue] using this

/-- With a valid entropy size, `generateEntropy` on a successful read returns
the big-endian value of the bytes read. -/
theorem generateEntropy_read (size : ℤ) (rs : RandomSource) (k : ℕ) (f : ℕ → Byte)
    (h1 : 1 ≤ size) (h3 : size ≤ 3) (hf : rs k = some f) :
    generateEntropy size (generateRandomBytes rs k)
      = .ok (bigEndianValue ((List.range size.toNat).map f)) := by
  unfold generateEntropy generateRandomBytes
  rw [if_neg (by simp only [MinEntropySize, MaxEntropySize]; omega), hf]
  simp only []
  congr 1
  unfold bigEndianValue
  apply entropy_fold _ _ (le_refl _)
  rw [List.length_map, List.length_range]
  have : size.toNat ≤ 3 := by omega
  have hp : (256 : ℤ) ^ size.toNat ≤ 256 ^ 3 := pow_le_pow_right₀ (by norm_num) this
  norm_num at hp ⊢
  omega

theorem generateEntropy_failed (size : ℤ) (rs : RandomSource) (k : ℕ) (h1 : 1 ≤ size)
    (h3 : size ≤ 3) (hf : rs k = none) :
    generateEntropy size (generateRandomBytes rs k) = .error ErrRandomSource := by
  unfold generateEntropy generateRandomBytes
  rw [if_neg (by simp only [MinEntropySize, MaxEntropySize]; omega), hf]

/-- Whatever `generateEntropy` returns from the random source is below `2^24`. -/
theorem generateEntropy_bound (size : ℤ) (rs : RandomSource) (k : ℕ) (e : ℤ)
    (h : generateEntropy size (generateRandomBytes rs k) = .ok e) : 0 ≤ e ∧ e < 2 ^ 24 := by
  by_cases hs : 1 ≤ size ∧ size ≤ 3
  · cases hf : rs k with
    | none => rw [generateEntropy_failed size rs k hs.1 hs.2 hf] at h; cases h
    | some f =>
      rw [generateEntropy_read size rs k f hs.1 hs.2 hf] at h
      cases h
      obtain ⟨b0, b1⟩ := bigEndianValue_bound ((List.range size.toNat).map f)
      rw [List.length_map, List.length_range] at b1
      have : size.toNat ≤ 3 := by omega
      have hp : (256 : ℤ) ^ size.toNat ≤ 256 ^ 3 := pow_le_pow_right₀ (by norm_num) this
      norm_num at hp
      exact ⟨b0, by omega⟩
  · unfold generateEntropy at h
    rw [if_pos (by simp only [MinEntropySize, MaxEntropySize]; omega)] at h
    cases h

/-- The redraw loop ends only with a positive entropy. -/
theorem entropyLoop_ok (size : ℤ) (rs : RandomSource) (fuel k : ℕ) (e : ℤ)
    (h : entropyLoop size rs fuel k = some (.ok e)) : 0 < e ∧ e < 2 ^ 24 := by
  induction fuel generalizing k with
  | zero => simp [entropyLoop] at h
  | succ fuel ih =>
    rw [entropyLoop] at h
    split at h
    · cases h
    · rename_i entropy hg
      split_ifs at h with hc
      · exact ih _ h
      · cases h
        exact ⟨by omega, (generateEntropy_bound size rs k _ hg).2⟩

/-! ## Generation -/

/-- With both fields in range the end of `New` succeeds with the packed value. -/
theorem emit_valid (s : State) (t r : ℤ) (ht0 : 0 ≤ t) (ht1 : t ≤ MaxTimestamp) (hr0 : 0 ≤ r)
    (hr1 : r ≤ MaxRandomness) :
    emit s t r = (.ok ⟨t * 2 ^ 20 + r⟩,
      { s with previousTimestamp := t, previousRandomness := r }) := by
  unfold emit
  simp only []
  rw [combine_eq t r ht0 ht1 hr0 hr1]
  have h1 : t ≤ 8796093022207 := by
    have : MaxTimestamp = 8796093022207 := by decide
    omega
  have h2 : r ≤ 1048575 := by
    have : MaxRandomness = 1048575 := by decide
    omega
  rw [if_neg (by omega)]
  unfold NewUlidFlake
  rw [if_neg (by omega)]

/-- The end of `New` succeeds only with a non-negative randomness. -/
theorem emit_ok (s s1 : State) (t r : ℤ) (u : UlidFlake) (ht0 : 0 ≤ t) (ht1 : t ≤ MaxTimestamp)
    (h : emit s t r = (.ok u, s1)) : 0 ≤ r := by
  by_contra hr
  have hneg := combine_neg t r ht0 ht1 (by omega)
  unfold emit at h
  simp only [] at h
  rw [if_neg (by omega)] at h
  unfold NewUlidFlake at h
  rw [if_pos (Or.inl hneg)] at h
  cases h

/-- What a successful `New` has done. -/
theorem New_ok (s s1 : State) (now : Time) (rs : RandomSource) (fuel : ℕ) (u : UlidFlake)
    (h : New s now rs fuel = some (.ok u, s1)) :
    ∃ t r, generateTimestamp s now = .ok t ∧ s.previousTimestamp ≤ t ∧
      0 ≤ t ∧ t ≤ MaxTimestamp ∧ 0 ≤ r ∧ r ≤ MaxRandomness ∧
      (t = s.previousTimestamp → ∃ entropy, 0 < entropy ∧ entropy < 2 ^ 24 ∧
        entropyLoop s.entropySize rs fuel 0 = some (.ok entropy) ∧
        r = add64 s.previousRandomness entropy) ∧
      (s.previousTimestamp < t → generateRandomness (generateRandomBytes rs 0) = .ok r) ∧
      u = ⟨t * 2 ^ 20 + r⟩ ∧
      s1 = { s with previousTimestamp := t, previousRandomness := r } := by
  unfold New at h
  split at h
  · cases h
  · rename_i t hg
    obtain ⟨-, ht0, ht1⟩ := generateTimestamp_ok s now t hg
    split_ifs at h with hlt heq
    · cases h
    · split at h
      · cases h
      · cases h
      · rename_i entropy hl
        split_ifs at h with hov
        · cases h
        · have h := Option.some.inj h
          have hr0 := emit_ok _ _ _ _ _ ht0 ht1 h
          rw [emit_valid s t _ ht0 ht1 hr0 (by omega)] at h
          obtain ⟨hu, hs⟩ := Prod.mk.inj h
          refine ⟨t, _, hg, by omega, ht0, ht1, hr0, by omega, ?_, ?_, ?_, hs.symm⟩
          · intro _
            obtain ⟨e0, e1⟩ := entropyLoop_ok _ _ _ _ _ hl
            exact ⟨entropy, e0, e1, hl, rfl⟩
          · intro hh; omega
          · exact (Except.ok.inj hu).symm
    · split at h
      · cases h
      · rename_i r hr
        have h := Option.some.inj h
        obtain ⟨hr0, hr1⟩ := generateRandomness_ok _ _ hr
        rw [emit_valid s t r ht0 ht1 hr0 hr1] at h
        obtain ⟨hu, hs⟩ := Prod.mk.inj h
        refine ⟨t, r, hg, by omega, ht0, ht1, hr0, hr1, ?_, ?_, ?_, hs.symm⟩
        · intro hh; exact absurd hh heq
        · intro _; exact hr
        · exact (Except.ok.inj hu).symm

/-- In a valid state a failing `New` leaves the state as it was. -/
theorem New_error (s s1 : State) (now : Time) (rs : RandomSource) (fuel : ℕ) (err : Error)
    (hv : s.Valid) (h : New s now rs fuel = some (.error err, s1)) : s1 = s := by
  obtain ⟨-, -, hp0, hp1⟩ := hv
  unfold New at h
  split at h
  · cases h; rfl
  · rename_i t hg
    obtain ⟨-, ht0, ht1⟩ := generateTimestamp_ok s now t hg
    split_ifs at h with hlt heq
    · cases h; rfl
    · split at h
      · cases h
      · cases h; rfl
      · rename_i entropy hl
        split_ifs at h with hov
        · cases h; rfl
        · obtain ⟨e0, e1⟩ := entropyLoop_ok _ _ _ _ _ hl
          have hM : MaxRandomness = 1048575 := by decide
          have ha : add64 s.previousRandomness entropy = s.previousRandomness + entropy := by
            unfold add64
            exact int64_of_range _ (by omega) (by omega)
          rw [emit_valid s t _ ht0 ht1 (by omega) (by omega)] at h
          cases h
    · split at h
      · cases h; rfl
      · rename_i r hr
        obtain ⟨hr0, hr1⟩ := generateRandomness_ok _ _ hr
        rw [emit_valid s t r ht0 ht1 hr0 hr1] at h
        cases h

/-- Every call of `New` that returns leaves the sequencer fields within their
bit fields, if they were so before. -/
theorem New_valid (s s1 : State) (now : Time) (rs : RandomSource) (fuel : ℕ)
    (res : Except Error UlidFlake) (hv : s.Valid) (h : New s now rs fuel = some (res, s1)) :
    s1.Valid := by
  cases res with
  | error err => rw [New_error s s1 now rs fuel err hv h]; exact hv
  | ok u =>
    obtain ⟨t, r, -, -, ht0, ht1, hr0, hr1, -, -, -, hs1⟩ := New_ok _ _ _ _ _ _ h
    rw [hs1]
    exact ⟨ht0, ht1, hr0, hr1⟩

/-! ## Runs of `New` and further evaluations -/

/-- From a valid state, every integer a run returns is above the packed
previous pair, and the integers of the run increase strictly. -/
theorem runNew_increasing (calls : List Call) : ∀ s : State, s.Valid →
    (∀ x ∈ runNew s calls, s.previousTimestamp * 2 ^ 20 + s.previousRandomness < x) ∧
      (runNew s calls).Pairwise (· < ·) := by
  induction calls with
  | nil => intro s _; simp [runNew]
  | cons c cs ih =>
    intro s hv
    have hv0 : State.Valid { s with epochTime := c.epochTime, entropySize := c.entropySize } := hv
    rw [runNew]
    split
    · simp
    · rename_i u s1 hN
      obtain ⟨t, r, -, hle, ht0, ht1, hr0, hr1, hsame, -, hu, hs1⟩ := New_ok _ _ _ _ _ _ hN
      obtain ⟨hp0, hp1, hq0, hq1⟩ := hv
      have hMR : MaxRandomness = 1048575 := by decide
      have hv1 : s1.Valid := by rw [hs1]; exact ⟨ht0, ht1, hr0, hr1⟩
      have hk1 : s1.previousTimestamp * 2 ^ 20 + s1.previousRandomness = u.Int := by
        rw [hs1, hu]; rfl
      have hgt : s.previousTimestamp * 2 ^ 20 + s.previousRandomness < u.Int := by
        rw [hu]
        show _ < t * 2 ^ 20 + r
        have hle2 : s.previousTimestamp ≤ t := hle
        by_cases heq : t = s.previousTimestamp
        · obtain ⟨entropy, e0, e1, -, hr⟩ := hsame heq
          have ha : add64 s.previousRandomness entropy = s.previousRandomness + entropy := by
            unfold add64
            exact int64_of_range _ (by omega) (by omega)
          have hr2 : r = s.previousRandomness + entropy := by rw [hr]; exact ha
          omega
        · omega
      obtain ⟨ih1, ih2⟩ := ih s1 hv1
      rw [hk1] at ih1
      constructor
      · intro x hx
        rcases List.mem_cons.mp hx with hx | hx
        · rw [hx]; exact hgt
        · exact lt_trans hgt (ih1 x hx)
      · exact List.Pairwise.cons ih1 ih2
    · rename_i err s1 hN
      have hs1 := New_error _ _ _ _ _ _ hv0 hN
      have hv1 : s1.Valid := by rw [hs1]; exact hv0
      obtain ⟨ih1, ih2⟩ := ih s1 hv1
      refine ⟨fun x hx => ?_, ih2⟩
      have hx1 := ih1 x hx
      rw [hs1] at hx1
      exact hx1

theorem State.init_valid : State.init.Valid := by
  unfold State.Valid State.init
  decide

set_option maxRecDepth 100000 in
theorem lowercase_ILOU_not_in_encoding :
    ∀ b ∈ ascii "abcdefghijklmnopqrstuvwxyzILOU", b ∉ encoding := by
  decide

set_option maxRecDepth 100000 in
theorem encodeBase32_boundary :
    encodeBase32 0 13 = ascii "0000000000000" ∧ encodeBase32 (2 ^ 63 - 1) 13 = ascii "7ZZZZZZZZZZZZ" ∧
      encodeBase32 (-1) 13 = ascii "ZZZZZZZZZZZZZ" ∧
      encodeBase32 (-2 ^ 63) 13 = ascii "R000000000000" := by
  repeat rw [encodeBase32_succ]
  decide

/-- The redraw loop skips the zero draws and stops at the first positive one. -/
theorem entropyLoop_skip (size : ℤ) (rs : RandomSource) (e : ℤ) (he : 0 < e) (n : ℕ) :
    ∀ k0 fuel : ℕ,
      (∀ j, k0 ≤ j → j < k0 + n → generateEntropy size (generateRandomBytes rs j) = .ok 0) →
      generateEntropy size (generateRandomBytes rs (k0 + n)) = .ok e → n < fuel →
      entropyLoop size rs fuel k0 = some (.ok e) := by
  induction n with
  | zero =>
    intro k0 fuel _ hk hf
    obtain ⟨m, rfl⟩ : ∃ m, fuel = m + 1 := ⟨fuel - 1, by omega⟩
    rw [entropyLoop]
    rw [Nat.add_zero] at hk
    rw [hk]
    simp only []
    rw [if_neg (by omega)]
  | succ n ih =>
    intro k0 fuel hz hk hf
    obtain ⟨m, rfl⟩ : ∃ m, fuel = m + 1 := ⟨fuel - 1, by omega⟩
    rw [entropyLoop, hz k0 (le_refl _) (by omega)]
    simp only []
    rw [if_pos (le_refl _)]
    apply ih (k0 + 1) m
    · intro j hj1 hj2
      exact hz j (by omega) (by omega)
    · rw [show k0 + 1 + n = k0 + (n + 1) by omega]; exact hk
    · omega

/-- Three calls within one millisecond, 5 ms after the epoch: a fresh draw, an
increment of 9 found after two zero draws, and an increment of 256 drawn with
entropy size 2. -/
theorem runNew_example :
    runNew State.init
      [⟨Time.Unix DefaultEpochSec, 1, exampleNow, listSource [[1, 2, 3]], 1⟩,
        ⟨Time.Unix DefaultEpochSec, 1, exampleNow, listSource [[0], [0], [9]], 3⟩,
        ⟨Time.Unix DefaultEpochSec, 2, exampleNow, listSource [[1, 0]], 1⟩]
      = [5308931, 5308940, 5309196] := by
  decide

/-! ## Reachable states -/

/-- The state returned by `FromUnixEpochTime` is the state it was given. -/
theorem FromUnixEpochTime_state (s : State) (unixTimeSec : ℤ) (rs : RandomSource) :
    (FromUnixEpochTime s unixTimeSec rs).2 = s := by
  unfold FromUnixEpochTime
  simp only []
  split_ifs
  · rfl
  · split
    · rfl
    · split_ifs <;> rfl

/-- The sequencer fields are not touched by `SetConfig`. -/
theorem SetConfig_previous (s : State) (opts : List ConfigOption) :
    (SetConfig s opts).2.previousTimestamp = s.previousTimestamp ∧
      (SetConfig s opts).2.previousRandomness = s.previousRandomness := by
  unfold SetConfig
  split <;> exact ⟨rfl, rfl⟩

/-- In every reachable state the sequencer fields are within their bit fields. -/
theorem Reachable.valid {s : State} (h : Reachable s) : s.Valid := by
  induction h with
  | init => exact State.init_valid
  | new s s1 now rs fuel res _ hN ih => exact New_valid s s1 now rs fuel res ih hN
  | setConfig s opts _ ih =>
    obtain ⟨h1, h2⟩ := SetConfig_previous s opts
    unfold State.Valid
    rw [h1, h2]
    exact ih
  | fromUnixEpochTime s sec rs _ ih => rw [FromUnixEpochTime_state]; exact ih

theorem exampleState_reachable : Reachable exampleState :=
  Reachable.new State.init exampleState exampleNow (listSource [[1, 2, 3]]) 1 (.ok ⟨5308931⟩)
    Reachable.init (by decide)

/-! ## Clock readings -/

/-- Within the range of a duration, `Sub` is the exact difference. -/
theorem Sub_exact (t u : Time) (h0 : -(2 ^ 63) ≤ t.unixNano - u.unixNano)
    (h1 : t.unixNano - u.unixNano ≤ 2 ^ 63 - 1) : t.Sub u = t.unixNano - u.unixNano := by
  unfold Time.Sub
  rw [if_neg (by omega), if_neg (by omega)]

theorem Sub_saturate_high (t u : Time) (h : 2 ^ 63 - 1 < t.unixNano - u.unixNano) :
    t.Sub u = 2 ^ 63 - 1 := by
  unfold Time.Sub
  rw [if_neg (by omega), if_pos (by omega)]

theorem Sub_saturate_low (t u : Time) (h : t.unixNano - u.unixNano < -(2 ^ 63)) :
    t.Sub u = -(2 ^ 63) := by
  unfold Time.Sub
  rw [if_pos h]

/-- Truncated and floored millisecond counts agree on non-negative durations. -/
theorem Milliseconds_nonneg (d : ℤ) (h : 0 ≤ d) : Milliseconds d = d / 1000000 := by
  unfold Milliseconds
  exact Int.tdiv_eq_ediv h (by norm_num)

/-- On negative durations `Milliseconds` rounds toward zero. -/
theorem Milliseconds_neg (d : ℤ) (h : d ≤ 0) : Milliseconds d = -((-d) / 1000000) := by
  unfold Milliseconds
  have e : d = -(-d) := by ring
  rw [e, Int.neg_tdiv, Int.tdiv_eq_ediv (by omega) (by norm_num)]
  simp

/-- The timestamp computed for an instant at or after the epoch. -/
theorem generateTimestamp_in_range (s : State) (now : Time)
    (h0 : 0 ≤ (now.unixNano - s.epochTime.unixNano) / 1000000)
    (h1 : (now.unixNano - s.epochTime.unixNano) / 1000000 ≤ 2 ^ 43 - 1) :
    generateTimestamp s now = .ok ((now.unixNano - s.epochTime.unixNano) / 1000000) := by
  have hd0 : 0 ≤ now.unixNano - s.epochTime.unixNano := by omega
  have hm : Milliseconds (now.Sub s.epochTime)
      = (now.unixNano - s.epochTime.unixNano) / 1000000 := by
    rw [Sub_exact _ _ (by omega) (by omega), Milliseconds_nonneg _ hd0]
  have hMT : MaxTimestamp = 8796093022207 := by decide
  rw [← hm]
  exact generateTimestamp_of_range s now (by omega) (by omega)

theorem generateTimestamp_error (s : State) (now : Time)
    (h : Milliseconds (now.Sub s.epochTime) < 0 ∨
      2 ^ 43 - 1 < Milliseconds (now.Sub s.epochTime)) :
    generateTimestamp s now = .error ErrOverflow := by
  have hMT : MaxTimestamp = 8796093022207 := by decide
  unfold generateTimestamp
  simp only [MinTimestamp]
  rw [if_pos (by omega)]

/-- Above the 43-bit ceiling `generateTimestamp` fails with `ErrOverflow`. -/
theorem generateTimestamp_above (s : State) (now : Time)
    (h : 2 ^ 43 - 1 < (now.unixNano - s.epochTime.unixNano) / 1000000) :
    generateTimestamp s now = .error ErrOverflow := by
  apply generateTimestamp_error
  right
  by_cases hs : now.unixNano - s.epochTime.unixNano ≤ 2 ^ 63 - 1
  · rw [Sub_exact _ _ (by omega) hs, Milliseconds_nonneg _ (by omega)]
    exact h
  · rw [Sub_saturate_high _ _ (by omega), Milliseconds_nonneg _ (by norm_num)]
    norm_num

/-- At least one millisecond before the epoch `generateTimestamp` fails with
`ErrOverflow`. -/
theorem generateTimestamp_before (s : State) (now : Time)
    (h : now.unixNano - s.epochTime.unixNano ≤ -1000000) :
    generateTimestamp s now = .error ErrOverflow := by
  apply generateTimestamp_error
  left
  by_cases hs : -(2 ^ 63) ≤ now.unixNano - s.epochTime.unixNano
  · rw [Sub_exact _ _ hs (by omega), Milliseconds_neg _ (by omega)]
    omega
  · rw [Sub_saturate_low _ _ (by omega), Milliseconds_neg _ (by norm_num)]
    norm_num

theorem New_of_generateTimestamp_error (s : State) (now : Time) (rs : RandomSource) (fuel : ℕ)
    (err : Error) (h : generateTimestamp s now = .error err) :
    New s now rs fuel = some (.error err, s) := by
  unfold New
  rw [h]

/-- Less than one millisecond before the epoch the truncated timestamp is 0 and
`generateTimestamp` returns it. -/
theorem generateTimestamp_just_before (s : State) (now : Time)
    (h0 : -1000000 < now.unixNano - s.epochTime.unixNano)
    (h1 : now.unixNano - s.epochTime.unixNano < 0) :
    generateTimestamp s now = .ok 0 := by
  have hm : Milliseconds (now.Sub s.epochTime) = 0 := by
    rw [Sub_exact _ _ (by omega) (by omega), Milliseconds_neg _ (by omega)]
    omega
  have := generateTimestamp_of_range s now (by rw [hm]) (by rw [hm]; decide)
  rw [hm] at this
  exact this

/-! ## Converters -/

theorem nat_lor_shift (a b k : ℕ) (h : b < 2 ^ k) : b ||| a <<< k = a * 2 ^ k + b := by
  rw [Nat.shiftLeft_eq, Nat.lor_comm, Nat.mul_comm, ← Nat.mul_add_lt_is_or h]

/-- The 32-bit big-endian value of a zero byte followed by three bytes. -/
theorem bigEndianUint32_three (a b c : Byte) :
    bigEndianUint32 [0, a, b, c] = a.val * 65536 + b.val * 256 + c.val := by
  unfold bigEndianUint32
  have ha := a.isLt
  have hb := b.isLt
  have hc := c.isLt
  simp only [List.getD_cons_succ, List.getD_cons_zero]
  rw [nat_lor_shift b.val c.val 8 (by omega), nat_lor_shift a.val _ 16 (by omega)]
  simp
  omega

/-- With a successful read, `generateRandomness` returns the low 20 bits of the
big-endian value of the three bytes read. -/
theorem generateRandomness_read (rs : RandomSource) (f : ℕ → Byte) (hf : rs 0 = some f) :
    generateRandomness (generateRandomBytes rs 0)
      = .ok (bigEndianValue ((List.range 3).map f) % 2 ^ 20) := by
  unfold generateRandomness generateRandomBytes
  rw [hf]
  simp only []
  congr 1
  have e3 : MaxEntropySize.toNat = 3 := by decide
  have eM : MaxRandomness.toNat = 2 ^ 20 - 1 := by decide
  have el : (List.range 3).map f = [f 0, f 1, f 2] := by
    simp [List.range_succ]
  rw [e3, eM, el, bigEndianUint32_three, Nat.and_pow_two_sub_one_eq_mod]
  unfold bigEndianValue
  simp only [List.foldl_cons, List.foldl_nil]
  push_cast
  ring_nf

theorem generateRandomness_failed (rs : RandomSource) (hf : rs 0 = none) :
    generateRandomness (generateRandomBytes rs 0) = .error ErrRandomSource := by
  unfold generateRandomness generateRandomBytes
  rw [hf]

/-- What `FromUnixEpochTime` returns when the wrapped timestamp is in range. -/
theorem FromUnixEpochTime_of_timestamp (s : State) (unixTimeSec : ℤ) (rs : RandomSource)
    (f : ℕ → Byte) (hf : rs 0 = some f)
    (h0 : 0 ≤ sub64 (mul64 unixTimeSec 1000) (int64 (DefaultEpochSec * 1000)))
    (h1 : sub64 (mul64 unixTimeSec 1000) (int64 (DefaultEpochSec * 1000)) ≤ 2 ^ 43 - 1) :
    FromUnixEpochTime s unixTimeSec rs
      = (.ok ⟨sub64 (mul64 unixTimeSec 1000) (int64 (DefaultEpochSec * 1000)) * 2 ^ 20
          + bigEndianValue ((List.range 3).map f) % 2 ^ 20⟩, s) := by
  have hMT : MaxTimestamp = 8796093022207 := by decide
  have hMR : MaxRandomness = 1048575 := by decide
  unfold FromUnixEpochTime
  simp only [MinTimestamp]
  rw [if_neg (by omega), generateRandomness_read rs f hf]
  simp only []
  have hr0 : 0 ≤ bigEndianValue ((List.range 3).map f) % 2 ^ 20 :=
    Int.emod_nonneg _ (by norm_num)
  have hr1 : bigEndianValue ((List.range 3).map f) % 2 ^ 20 < 2 ^ 20 :=
    Int.emod_lt_of_pos _ (by norm_num)
  rw [combine_eq _ _ h0 (by omega) hr0 (by omega), if_neg (by omega)]
  unfold NewUlidFlake
  rw [if_neg (by omega)]

/-- As long as neither the product nor the difference leaves the 64-bit range,
a timestamp outside `[0, 2^43-1]` makes `FromUnixEpochTime` fail with
`ErrOverflow`. -/
theorem FromUnixEpochTime_overflow (s : State) (unixTimeSec : ℤ) (rs : RandomSource)
    (hlo : -(2 ^ 63) ≤ unixTimeSec * 1000 - 1704067200000)
    (hhi : unixTimeSec * 1000 ≤ 2 ^ 63 - 1)
    (h : unixTimeSec * 1000 - 1704067200000 < 0 ∨
      2 ^ 43 - 1 < unixTimeSec * 1000 - 1704067200000) :
    FromUnixEpochTime s unixTimeSec rs = (.error ErrOverflow, s) := by
  have hMT : MaxTimestamp = 8796093022207 := by decide
  have ht : sub64 (mul64 unixTimeSec 1000) (int64 (DefaultEpochSec * 1000))
      = unixTimeSec * 1000 - 1704067200000 := by
    have hE : int64 (DefaultEpochSec * 1000) = 1704067200000 := by decide
    unfold sub64 mul64
    rw [hE, int64_of_range (unixTimeSec * 1000) (by omega) (by omega),
      int64_of_range _ (by omega) (by omega)]
  unfold FromUnixEpochTime
  simp only [MinTimestamp]
  rw [ht, if_pos (by omega)]

/-! ## Configuration -/

/-- An entropy size outside `[1, 3]` is refused on every draft. -/
theorem WithEntropySize_fails (n : ℤ) (h : n < 1 ∨ n > 3) (cfg : config) :
    ∃ err, WithEntropySize n cfg = .error err := by
  unfold WithEntropySize
  simp only [MinEntropySize, MaxEntropySize]
  rw [if_pos h]
  exact ⟨_, rfl⟩

theorem applyOptions_fails (opts : List ConfigOption)
    (h : ∃ o ∈ opts, ∀ cfg, ∃ err, o cfg = .error err) (cfg : config) :
    ∃ err, applyOptions opts cfg = .error err := by
  induction opts generalizing cfg with
  | nil => simp at h
  | cons o os ih =>
    rw [applyOptions]
    cases ho : o cfg with
    | error err => exact ⟨err, rfl⟩
    | ok cfg1 =>
      simp only []
      apply ih
      obtain ⟨o1, hm, hf⟩ := h
      rcases List.mem_cons.mp hm with hm | hm
      · obtain ⟨err, he⟩ := hf cfg
        rw [hm, ho] at he
        cases he
      · exact ⟨o1, hm, hf⟩

/-! ## Raw bytes -/

theorem ofNat_byte_eq (a b : ℕ) (h : a % 256 = b % 256) : (Fin.ofNat a : Byte) = Fin.ofNat b := by
  apply Fin.ext
  exact h

/-- The 7 bytes of `bytes()` are the 7 low-order bytes of `uint64(value)`. -/
theorem bytes_eq (v : ℤ) :
    (UlidFlake.mk v).bytes = bigEndianBytes (v % 2 ^ 64).toNat 7 := by
  unfold UlidFlake.bytes
  simp only [bigEndianBytes, List.map_cons, List.map_nil, List.tail_cons, List.nil_append,
    List.cons_append, Nat.shiftRight_eq_div_pow]
  generalize (v % 2 ^ 64).toNat = w
  refine congrArg₂ _ (ofNat_byte_eq _ _ ?_) (congrArg₂ _ (ofNat_byte_eq _ _ ?_)
    (congrArg₂ _ (ofNat_byte_eq _ _ ?_) (congrArg₂ _ (ofNat_byte_eq _ _ ?_)
    (congrArg₂ _ (ofNat_byte_eq _ _ ?_) (congrArg₂ _ (ofNat_byte_eq _ _ ?_)
    (congrArg₂ _ (ofNat_byte_eq _ _ ?_) rfl)))))) <;> omega

theorem bigEndianBytes_length (v n : ℕ) : (bigEndianBytes v n).length = n := by
  induction n generalizing v with
  | zero => rfl
  | succ n ih => rw [bigEndianBytes, List.length_append, ih]; rfl

theorem bigEndianBytes_mod (n v : ℕ) : bigEndianBytes (v % 256 ^ n) n = bigEndianBytes v n := by
  induction n generalizing v with
  | zero => rfl
  | succ n ih =>
    rw [bigEndianBytes, bigEndianBytes]
    have h1 : v % 256 ^ (n + 1) / 256 = (v / 256) % 256 ^ n := by
      rw [pow_succ, Nat.mul_comm, Nat.mod_mul_right_div_self]
    have h2 : v % 256 ^ (n + 1) % 256 = v % 256 := by
      rw [pow_succ, Nat.mul_comm]
      exact Nat.mod_mul_right_mod v 256 (256 ^ n)
    rw [h1, ih, ofNat_byte_eq _ _ h2]

theorem ofNat_byte_lt (a b : ℕ) :
    ((Fin.ofNat a : Byte) < Fin.ofNat b) ↔ a % 256 < b % 256 := Iff.rfl

theorem ofNat_byte_inj (a b : ℕ) (h : (Fin.ofNat a : Byte) = Fin.ofNat b) :
    a % 256 = b % 256 := congrArg Fin.val h

theorem bigEndianBytes_inj (n u v : ℕ) (hu : u < 256 ^ n) (hv : v < 256 ^ n)
    (h : bigEndianBytes u n = bigEndianBytes v n) : u = v := by
  induction n generalizing u v with
  | zero =>
    have : u < 1 := by simpa using hu
    have : v < 1 := by simpa using hv
    omega
  | succ n ih =>
    rw [bigEndianBytes, bigEndianBytes] at h
    obtain ⟨h1, h2⟩ := List.append_inj h
      (by rw [bigEndianBytes_length, bigEndianBytes_length])
    rw [pow_succ] at hu hv
    have hq := ih (u / 256) (v / 256) (Nat.div_lt_of_lt_mul (by omega))
      (Nat.div_lt_of_lt_mul (by omega)) h1
    have hm := ofNat_byte_inj u v (by simpa using h2)
    omega

/-- Fixed-width big-endian bytes compare as the numbers they write. -/
theorem strLt_bigEndianBytes (n u v : ℕ) (hu : u < 256 ^ n) (hv : v < 256 ^ n) :
    strLt (bigEndianBytes u n) (bigEndianBytes v n) = decide (u < v) := by
  induction n generalizing u v with
  | zero =>
    have : u < 1 := by simpa using hu
    have : v < 1 := by simpa using hv
    have hu0 : u = 0 := by omega
    have hv0 : v = 0 := by omega
    subst hu0 hv0
    simp [bigEndianBytes, strLt]
  | succ n ih =>
    rw [bigEndianBytes, bigEndianBytes, strLt_append_singleton _ _ _ _
      (by rw [bigEndianBytes_length, bigEndianBytes_length])]
    rw [pow_succ] at hu hv
    have hqu : u / 256 < 256 ^ n := Nat.div_lt_of_lt_mul (by omega)
    have hqv : v / 256 < 256 ^ n := Nat.div_lt_of_lt_mul (by omega)
    rw [ih _ _ hqu hqv]
    have hlt := ofNat_byte_lt u v
    by_cases hq : u / 256 = v / 256
    · have he : bigEndianBytes (u / 256) n = bigEndianBytes (v / 256) n := by rw [hq]
      simp only [he, decide_True, Bool.true_and, hq, lt_self_iff_false, decide_False,
        Bool.false_or]
      rw [decide_eq_decide, hlt]
      omega
    · have hne : bigEndianBytes (u / 256) n ≠ bigEndianBytes (v / 256) n := fun he =>
        hq (bigEndianBytes_inj n _ _ hqu hqv he)
      simp only [hne, decide_False, Bool.false_and, Bool.or_false]
      rw [decide_eq_decide]
      omega

theorem land_255 (x : ℤ) : Int.land x 255 = x % 256 := by
  have := land_mask x 8
  norm_num at this
  exact this

theorem bigEndianValue_append (l : List Byte) (b : Byte) :
    bigEndianValue (l ++ [b]) = bigEndianValue l * 256 + (b.val : ℤ) := by
  unfold bigEndianValue
  rw [List.foldl_append]
  rfl

/-- The bytes written for `v` read back as `v` modulo `256^n`. -/
theorem bigEndianValue_bigEndianBytes (n v : ℕ) :
    bigEndianValue (bigEndianBytes v n) = ((v % 256 ^ n : ℕ) : ℤ) := by
  induction n generalizing v with
  | zero => simp [bigEndianBytes, bigEndianValue, Nat.mod_one]
  | succ n ih =>
    rw [bigEndianBytes, bigEndianValue_append, ih]
    have hv : ((Fin.ofNat v : Byte).val : ℤ) = ((v % 256 : ℕ) : ℤ) := rfl
    rw [hv]
    have h := Nat.div_add_mod (v % 256 ^ (n + 1)) 256
    have h1 : v % 256 ^ (n + 1) / 256 = (v / 256) % 256 ^ n := by
      rw [pow_succ, Nat.mul_comm, Nat.mod_mul_right_div_self]
    have h2 : v % 256 ^ (n + 1) % 256 = v % 256 := by
      rw [pow_succ, Nat.mul_comm]
      exact Nat.mod_mul_right_mod v 256 (256 ^ n)
    rw [h1, h2] at h
    have : (((v / 256) % 256 ^ n : ℕ) : ℤ) * 256 + ((v % 256 : ℕ) : ℤ)
        = ((256 * ((v / 256) % 256 ^ n) + v % 256 : ℕ) : ℤ) := by
      push_cast; ring
    rw [this, h]

/-- The bytes of `bytes()` are the 7 low-order bytes of the value. -/
theorem bytes_eq_low (v : ℤ) :
    (UlidFlake.mk v).bytes = bigEndianBytes (v % 2 ^ 56).toNat 7 := by
  rw [bytes_eq]
  have h1 := bigEndianBytes_mod 7 (v % 2 ^ 64).toNat
  have h2 : (v % 2 ^ 64).toNat % 256 ^ 7 = (v % 2 ^ 56).toNat := by
    norm_num
    omega
  rw [h2] at h1
  exact h1.symm

set_option maxRecDepth 100000 in
theorem bytes_boundary :
    (UlidFlake.mk 0).bytes = [0, 0, 0, 0, 0, 0, 0] ∧
      (UlidFlake.mk (-2 ^ 63)).bytes = [0, 0, 0, 0, 0, 0, 0] ∧
      (UlidFlake.mk (2 ^ 63 - 1)).bytes = [255, 255, 255, 255, 255, 255, 255] ∧
      (UlidFlake.mk (-1)).bytes = [255, 255, 255, 255, 255, 255, 255] := by
  decide

theorem bytes_getElem? (v : ℤ) (k : Fin 7) :
    (UlidFlake.mk v).bytes[k.val]?
      = some (Fin.ofNat (Int.land (v >>> (8 * (6 - k.val))) 255).toNat) := by
  unfold UlidFlake.bytes
  simp only [List.map_cons, List.map_nil, List.tail_cons, Nat.shiftRight_eq_div_pow]
  fin_cases k <;>
    simp only [List.getElem?_cons_zero, List.getElem?_cons_succ, Option.some.injEq] <;>
    apply ofNat_byte_eq <;>
    rw [land_255, Int.shiftRight_eq_div_pow] <;>
    norm_num <;>
    omega

/-- The byte order of `bytes()` is the numeric order of the low 56 bits. -/
theorem strLt_bytes (u v : ℤ) :
    strLt (UlidFlake.mk u).bytes (UlidFlake.mk v).bytes = decide (u % 2 ^ 56 < v % 2 ^ 56) := by
  rw [bytes_eq_low, bytes_eq_low, strLt_bigEndianBytes 7 _ _ (by norm_num; omega)
    (by norm_num; omega), decide_eq_decide]
  omega

/-! ## Replacement of the configuration -/

/-- The loop of `SetConfig` applies the options in order, each to the draft
left by the one before, up to the first error. -/
theorem applyOptions_eq_foldlM (opts : List ConfigOption) (cfg : config) :
    applyOptions opts cfg = opts.foldlM (fun c (o : ConfigOption) => o c) cfg := by
  induction opts generalizing cfg with
  | nil => rfl
  | cons o os ih =>
    rw [applyOptions, List.foldlM_cons]
    cases ho : o cfg with
    | error err => rfl
    | ok cfg1 => exact ih cfg1

theorem SetConfig_of_ok (s : State) (opts : List ConfigOption) (cfg : config)
    (h : applyOptions opts
      { epochTime := Time.Unix DefaultEpochSec, entropySize := MinEntropySize } = .ok cfg) :
    SetConfig s opts
      = (.ok (), { s with epochTime := cfg.epochTime, entropySize := cfg.entropySize }) := by
  unfold SetConfig
  rw [h]

/-- The second assignment of `SetConfig`, done on the state left by the first,
gives the state `SetConfig` returns. -/
theorem SetConfig_of_EpochWritten (s : State) (opts : List ConfigOption) (cfg : config)
    (h : applyOptions opts
      { epochTime := Time.Unix DefaultEpochSec, entropySize := MinEntropySize } = .ok cfg) :
    SetConfigEpochWritten s opts = some { s with epochTime := cfg.epochTime } ∧
      (SetConfig s opts).2
        = { ({ s with epochTime := cfg.epochTime } : State) with entropySize := cfg.entropySize } := by
  unfold SetConfigEpochWritten SetConfig
  rw [h]
  exact ⟨rfl, rfl⟩

/-! ## Fresh randomness -/

/-- What `New` returns when the timestamp has advanced and the read succeeds. -/
theorem New_fresh (s : State) (now : Time) (rs : RandomSource) (fuel : ℕ) (f : ℕ → Byte) (t : ℤ)
    (ht : generateTimestamp s now = .ok t) (hgt : s.previousTimestamp < t)
    (hf : rs 0 = some f) :
    New s now rs fuel
      = some (.ok ⟨t * 2 ^ 20 + bigEndianValue ((List.range 3).map f) % 2 ^ 20⟩,
          { s with previousTimestamp := t,
                   previousRandomness := bigEndianValue ((List.range 3).map f) % 2 ^ 20 }) := by
  obtain ⟨-, ht0, ht1⟩ := generateTimestamp_ok s now t ht
  have hMR : MaxRandomness = 1048575 := by decide
  have hr0 : 0 ≤ bigEndianValue ((List.range 3).map f) % 2 ^ 20 :=
    Int.emod_nonneg _ (by norm_num)
  have hr1 : bigEndianValue ((List.range 3).map f) % 2 ^ 20 < 2 ^ 20 :=
    Int.emod_lt_of_pos _ (by norm_num)
  unfold New
  rw [ht]
  simp only []
  rw [if_neg (by omega), if_neg (by omega), generateRandomness_read rs f hf]
  simp only []
  rw [emit_valid s t _ ht0 ht1 hr0 (by omega)]

/-- Every 20-bit value is the low 20 bits of some 3-byte draw. -/
theorem randomness_surjective (r : ℤ) (h0 : 0 ≤ r) (h1 : r ≤ 2 ^ 20 - 1) :
    ∃ g : ℕ → Byte, bigEndianValue ((List.range 3).map g) % 2 ^ 20 = r := by
  refine ⟨fun j => (bigEndianBytes r.toNat 3).getD j 0, ?_⟩
  have hl : (List.range 3).map (fun j => (bigEndianBytes r.toNat 3).getD j 0)
      = bigEndianBytes r.toNat 3 := by
    simp [List.range_succ, bigEndianBytes]
  rw [hl, bigEndianValue_bigEndianBytes]
  norm_num
  omega

/-! ## Wrap-around of decoding -/

/-- Wrapping before or after a multiply-and-add step is the same. -/
theorem int64_step (a d : ℤ) : add64 (mul64 (int64 a) 32) d = int64 (a * 32 + d) := by
  unfold add64 mul64 int64
  omega

theorem int64_nonneg_iff (x : ℤ) : 0 ≤ int64 x ↔ x % 2 ^ 64 < 2 ^ 63 := by
  unfold int64
  omega

theorem int64_eq_mod (x : ℤ) (h : x % 2 ^ 64 < 2 ^ 63) : int64 x = x % 2 ^ 64 := by
  unfold int64
  omega

theorem int64_le (x : ℤ) : int64 x ≤ 2 ^ 63 - 1 := by
  unfold int64
  omega

set_option maxRecDepth 100000 in
theorem findIndex_bounds : ∀ b ∈ encoding,
    0 ≤ findIndex b.val encoding 0 ∧ findIndex b.val encoding 0 < 32 ∧ b.val < 128 := by
  decide

/-- On a string over the alphabet the decoding loop returns the wrapped base-32
value. -/
theorem decodeLoop_alphabet (s : GoString) (hs : ∀ b ∈ s, b ∈ encoding) (acc : ℤ) :
    decodeLoop (s.map (fun b => b.val)) (int64 acc)
      = .ok (int64 (s.foldl (fun a b => a * 32 + findIndex b.val encoding 0) acc)) := by
  induction s generalizing acc with
  | nil => rfl
  | cons b bs ih =>
    have hb := findIndex_bounds b (hs b (List.mem_cons_self _ _))
    rw [List.map_cons, decodeLoop, if_neg (by omega), int64_step, List.foldl_cons]
    exact ih (fun c hc => hs c (List.mem_cons_of_mem _ hc)) _

theorem decodeBase32_alphabet (s : GoString) (hs : ∀ b ∈ s, b ∈ encoding) :
    decodeBase32 s = .ok (int64 (base32Value s)) := by
  unfold decodeBase32 base32Value
  rw [runes_ascii s (fun b hb => (findIndex_bounds b (hs b hb)).2.2)]
  have h := decodeLoop_alphabet s hs 0
  have h0 : int64 0 = 0 := by decide
  rw [h0] at h
  exact h

theorem base32_fold (s : GoString) (acc : ℤ) :
    s.foldl (fun a b => a * 32 + findIndex b.val encoding 0) acc
      = acc * 32 ^ s.length + base32Value s := by
  unfold base32Value
  induction s generalizing acc with
  | nil => simp
  | cons b bs ih =>
    rw [List.foldl_cons, List.foldl_cons, ih, ih (0 * 32 + _), List.length_cons, pow_succ]
    ring

theorem base32Value_cons (b : Byte) (bs : GoString) :
    base32Value (b :: bs) = findIndex b.val encoding 0 * 32 ^ bs.length + base32Value bs := by
  have h := base32_fold bs (0 * 32 + findIndex b.val encoding 0)
  unfold base32Value at h ⊢
  rw [List.foldl_cons, h]
  ring

theorem base32Value_bound (s : GoString) (hs : ∀ b ∈ s, b ∈ encoding) :
    0 ≤ base32Value s ∧ base32Value s < 32 ^ s.length := by
  induction s with
  | nil => simp [base32Value]
  | cons b bs ih =>
    obtain ⟨h0, h1⟩ := ih (fun c hc => hs c (List.mem_cons_of_mem _ hc))
    obtain ⟨hb0, hb1, -⟩ := findIndex_bounds b (hs b (List.mem_cons_self _ _))
    rw [base32Value_cons, List.length_cons, pow_succ]
    have hp : (0 : ℤ) < 32 ^ bs.length := by positivity
    constructor
    · positivity
    · nlinarith

/-- What `Parse` returns on a string of 13 symbols of the alphabet. -/
theorem Parse_alphabet (s : GoString) (hl : s.length = 13) (hs : ∀ b ∈ s, b ∈ encoding) :
    Parse s = NewUlidFlake (int64 (base32Value s)) := by
  unfold Parse
  rw [if_neg (by simp [UlidFlakeLen, hl]), decodeBase32_alphabet s hs]

/-! ## The claims -/

/-- Claim C1. Whatever the clock readings, random draws and configurations of a
sequence of `New` calls started in the initial state, the integers returned by
the successful calls increase strictly (also within one millisecond). -/
theorem New_strictly_increasing (calls : List Call) :
    (runNew State.init calls).Pairwise (· < ·) :=
  (runNew_increasing calls State.init State.init_valid).2

/-- Claim C2. Every `v` in `[0, 2^63-1]` is decoded back from its 13-symbol
encoding, and `Parse` of the string of `v` succeeds with an identifier whose
`Int()` is `v`. -/
theorem Parse_String_roundtrip (v : ℤ) (h0 : 0 ≤ v) (h1 : v ≤ 2 ^ 63 - 1) :
    decodeBase32 (encodeBase32 v 13) = .ok v ∧
      ∃ u, Parse (UlidFlake.String ⟨v⟩) = .ok u ∧ u.Int = v := by
  have hd := decodeBase32_encodeBase32 v h0 h1
  refine ⟨hd, ⟨v⟩, ?_, rfl⟩
  unfold Parse UlidFlake.String
  rw [if_neg (by simp [UlidFlakeLen, encodeBase32_length])]
  simp only [UlidFlakeLen, hd]
  unfold NewUlidFlake
  rw [if_neg (by omega)]

set_option maxRecDepth 100000 in
theorem Parse_String_roundtrip_witness :
    (0 : ℤ) ≤ 2 ^ 63 - 1 ∧ (2 ^ 63 - 1 : ℤ) ≤ 2 ^ 63 - 1 ∧
      decodeBase32 (encodeBase32 (2 ^ 63 - 1) 13) = .ok (2 ^ 63 - 1) ∧
      ∃ u, Parse (UlidFlake.String ⟨2 ^ 63 - 1⟩) = .ok u ∧ u.Int = 2 ^ 63 - 1 :=
  ⟨by decide, by decide, Parse_String_roundtrip (2 ^ 63 - 1) (by decide) (by decide)⟩

/-- Claim C3. On `[0, 2^63-1]` the numeric order is the byte-wise lexicographic
order of the 13-symbol encodings, and equal encodings come from equal values. -/
theorem encodeBase32_order (u v : ℤ) (hu0 : 0 ≤ u) (hu1 : u ≤ 2 ^ 63 - 1) (hv0 : 0 ≤ v)
    (hv1 : v ≤ 2 ^ 63 - 1) :
    (encodeBase32 u 13).length = 13 ∧ (encodeBase32 v 13).length = 13 ∧
      (u < v ↔ strLt (encodeBase32 u 13) (encodeBase32 v 13) = true) ∧
      (encodeBase32 u 13 = encodeBase32 v 13 → u = v) := by
  have hu2 : u < 32 ^ 13 := by norm_num; omega
  have hv2 : v < 32 ^ 13 := by norm_num; omega
  refine ⟨encodeBase32_length u 13, encodeBase32_length v 13, ?_,
    encodeBase32_inj 13 u v hu0 hu2 hv0 hv2⟩
  rw [strLt_encodeBase32 13 u v hu0 hu2 hv0 hv2, decide_eq_true_iff]

theorem encodeBase32_order_witness :
    (0 : ℤ) ≤ 1048575 ∧ (1048575 : ℤ) ≤ 2 ^ 63 - 1 ∧ (0 : ℤ) ≤ 1048576 ∧
      (1048576 : ℤ) ≤ 2 ^ 63 - 1 ∧
      (encodeBase32 1048575 13).length = 13 ∧ (encodeBase32 1048576 13).length = 13 ∧
      ((1048575 : ℤ) < 1048576 ↔
        strLt (encodeBase32 1048575 13) (encodeBase32 1048576 13) = true) ∧
      (encodeBase32 1048575 13 = encodeBase32 1048576 13 → (1048575 : ℤ) = 1048576) :=
  ⟨by decide, by decide, by decide, by decide,
    encodeBase32_order 1048575 1048576 (by decide) (by decide) (by decide) (by decide)⟩

set_option maxRecDepth 100000 in
/-- Claim C4, evaluated at a failing input. The 13-symbol string
`G000000000000` is over the alphabet and has base-32 value `2^64 > 2^63-1`, yet
`Parse` accepts it and returns the identifier `0`: the wrapping accumulation
loses bit 64 before the range check. -/
theorem Parse_accepts_two_pow_64 :
    (ascii "G000000000000").length = 13 ∧ (∀ b ∈ ascii "G000000000000", b ∈ encoding) ∧
      base32Value (ascii "G000000000000") = 2 ^ 64 ∧
      Parse (ascii "G000000000000") = .ok ⟨0⟩ ∧
      Parse (ascii "0000000000000") = .ok ⟨0⟩ := by
  decide

/-- Claim C5. A string whose length is not 13, or a 13-byte string with a byte
outside the alphabet, is refused by `Parse` and `FromStr` with `ErrInvalidULID`;
lowercase letters and `I`, `L`, `O`, `U` are outside the alphabet. -/
theorem Parse_invalid (s : GoString)
    (h : s.length ≠ 13 ∨ (s.length = 13 ∧ ∃ b ∈ s, b ∉ encoding)) :
    Parse s = .error ErrInvalidULID ∧ FromStr s = .error ErrInvalidULID ∧
      ∀ b ∈ ascii "abcdefghijklmnopqrstuvwxyzILOU", b ∉ encoding := by
  have hp : Parse s = .error ErrInvalidULID := by
    rcases h with h | h
    · exact Parse_invalid_length s h
    · exact Parse_invalid_char s h.2
  exact ⟨hp, hp, lowercase_ILOU_not_in_encoding⟩

set_option maxRecDepth 100000 in
theorem Parse_invalid_witness :
    ((ascii "01234o6789ABC").length ≠ 13 ∨ ((ascii "01234o6789ABC").length = 13 ∧
        ∃ b ∈ ascii "01234o6789ABC", b ∉ encoding)) ∧
      Parse (ascii "01234o6789ABC") = .error ErrInvalidULID ∧
      FromStr (ascii "01234o6789ABC") = .error ErrInvalidULID ∧
      ∀ b ∈ ascii "abcdefghijklmnopqrstuvwxyzILOU", b ∉ encoding :=
  ⟨Or.inr ⟨by decide, 111, by decide, by decide⟩,
    Parse_invalid (ascii "01234o6789ABC") (Or.inr ⟨by decide, 111, by decide, by decide⟩)⟩

/-- Claim C6. For every integer `v` (so for every `int64`, negative ones
included) `encodeBase32 v 13` has exactly 13 symbols of the alphabet, the
symbol at position `i` being the one with index `(v >> 5*(12-i)) & 31`; the
four boundary encodings are as listed. -/
theorem encodeBase32_symbols (v : ℤ) (i : Fin 13) :
    (encodeBase32 v 13).length = 13 ∧ (∀ b ∈ encodeBase32 v 13, b ∈ encoding) ∧
      (Int.land (v >>> (5 * (12 - i.val))) 31).toNat < encoding.length ∧
      (encodeBase32 v 13)[i.val]? = encoding[(Int.land (v >>> (5 * (12 - i.val))) 31).toNat]? ∧
      encodeBase32 0 13 = ascii "0000000000000" ∧
      encodeBase32 (2 ^ 63 - 1) 13 = ascii "7ZZZZZZZZZZZZ" ∧
      encodeBase32 (-1) 13 = ascii "ZZZZZZZZZZZZZ" ∧
      encodeBase32 (-2 ^ 63) 13 = ascii "R000000000000" :=
  ⟨encodeBase32_length v 13, encodeBase32_mem v 13,
    by rw [land_31]; exact digit_lt _,
    encodeBase32_getElem? 13 v i.val i.isLt, encodeBase32_boundary⟩

/-- Claim C7. In the non-scalable layout, packing a timestamp `t` of 43 bits and
a randomness `r` of 20 bits gives `v = (t << 20) | r` in `[0, 2^63-1]` with
`Timestamp(v) = t` and `Randomness(v) = r`; every `v` in `[0, 2^63-1]` is the
packing of its own two fields; and the fields of `2^63-1` are `2^43-1` and
`2^20-1`. -/
theorem layout_roundtrip (t r v : ℤ) (ht0 : 0 ≤ t) (ht1 : t ≤ 2 ^ 43 - 1) (hr0 : 0 ≤ r)
    (hr1 : r ≤ 2 ^ 20 - 1) (hv0 : 0 ≤ v) (hv1 : v ≤ 2 ^ 63 - 1) :
    (combine t r = Int.lor (shl64 t 20) r ∧ 0 ≤ combine t r ∧ combine t r ≤ 2 ^ 63 - 1 ∧
        UlidFlake.Timestamp ⟨combine t r⟩ = t ∧ UlidFlake.Randomness ⟨combine t r⟩ = r) ∧
      v = Int.lor (shl64 (UlidFlake.Timestamp ⟨v⟩) 20) (UlidFlake.Randomness ⟨v⟩) ∧
      UlidFlake.Timestamp ⟨2 ^ 63 - 1⟩ = 2 ^ 43 - 1 ∧
      UlidFlake.Randomness ⟨2 ^ 63 - 1⟩ = 2 ^ 20 - 1 := by
  have hMT : MaxTimestamp = 8796093022207 := by decide
  have hMR : MaxRandomness = 1048575 := by decide
  refine ⟨⟨combine_eq_lor t r, ?_⟩, ?_, ?_, ?_⟩
  · rw [combine_eq t r ht0 (by omega) hr0 (by omega), Timestamp_eq, Randomness_eq]
    refine ⟨?_, ?_, ?_, ?_⟩ <;> omega
  · rw [← combine_eq_lor, Timestamp_eq, Randomness_eq,
      combine_eq _ _ (by omega) (by omega) (by omega) (by omega)]
    omega
  · rw [Timestamp_eq]; norm_num
  · rw [Randomness_eq]; norm_num

theorem layout_roundtrip_witness :
    (0 : ℤ) ≤ 5 ∧ (5 : ℤ) ≤ 2 ^ 43 - 1 ∧ (0 : ℤ) ≤ 66051 ∧ (66051 : ℤ) ≤ 2 ^ 20 - 1 ∧
      (0 : ℤ) ≤ 5308931 ∧ (5308931 : ℤ) ≤ 2 ^ 63 - 1 ∧
      (combine 5 66051 = Int.lor (shl64 5 20) 66051 ∧ 0 ≤ combine 5 66051 ∧
        combine 5 66051 ≤ 2 ^ 63 - 1 ∧
        UlidFlake.Timestamp ⟨combine 5 66051⟩ = 5 ∧
        UlidFlake.Randomness ⟨combine 5 66051⟩ = 66051) ∧
      (5308931 : ℤ) = Int.lor (shl64 (UlidFlake.Timestamp ⟨5308931⟩) 20)
        (UlidFlake.Randomness ⟨5308931⟩) ∧
      UlidFlake.Timestamp ⟨2 ^ 63 - 1⟩ = 2 ^ 43 - 1 ∧
      UlidFlake.Randomness ⟨2 ^ 63 - 1⟩ = 2 ^ 20 - 1 :=
  ⟨by decide, by decide, by decide, by decide, by decide, by decide,
    layout_roundtrip 5 66051 5308931 (by decide) (by decide) (by decide) (by decide)
      (by decide) (by decide)⟩

/-- Claim C8. When `New` succeeds, with `t` the timestamp it computed and `r` the
randomness it chose (the previous randomness plus the positive entropy when
`t` is the previous timestamp, the fresh draw otherwise), the identifier is
`t * 2^20 + r`, within `[0, 2^63-1]`, its `Timestamp()` is `t`, its
`Randomness()` is `r`, and the state left behind has `previousTimestamp = t`
in `[0, 2^43-1]` and `previousRandomness = r` in `[0, 2^20-1]`. -/
theorem New_success (s s1 : State) (now : Time) (rs : RandomSource) (fuel : ℕ) (u : UlidFlake)
    (h : New s now rs fuel = some (.ok u, s1)) :
    ∃ t r, generateTimestamp s now = .ok t ∧
      (t = s.previousTimestamp → ∃ entropy, 0 < entropy ∧
        entropyLoop s.entropySize rs fuel 0 = some (.ok entropy) ∧
        r = add64 s.previousRandomness entropy) ∧
      (t ≠ s.previousTimestamp → generateRandomness (generateRandomBytes rs 0) = .ok r) ∧
      u.Int = t * 2 ^ 20 + r ∧ 0 ≤ u.Int ∧ u.Int ≤ 2 ^ 63 - 1 ∧
      u.Timestamp = t ∧ u.Randomness = r ∧
      s1 = { s with previousTimestamp := t, previousRandomness := r } ∧
      s1.previousTimestamp = t ∧ s1.previousRandomness = r ∧
      0 ≤ t ∧ t ≤ 2 ^ 43 - 1 ∧ 0 ≤ r ∧ r ≤ 2 ^ 20 - 1 := by
  obtain ⟨t, r, hg, hle, ht0, ht1, hr0, hr1, hsame, hfresh, hu, hs1⟩ := New_ok _ _ _ _ _ _ h
  have hMT : MaxTimestamp = 8796093022207 := by decide
  have hMR : MaxRandomness = 1048575 := by decide
  refine ⟨t, r, hg, ?_, ?_, ?_, ?_, ?_, ?_, ?_, hs1, ?_, ?_, ht0, by omega, hr0, by omega⟩
  · intro heq
    obtain ⟨entropy, e0, -, e2, e3⟩ := hsame heq
    exact ⟨entropy, e0, e2, e3⟩
  · intro hne
    exact hfresh (lt_of_le_of_ne hle (Ne.symm hne))
  · rw [hu]; rfl
  · rw [hu]; show 0 ≤ t * 2 ^ 20 + r; omega
  · rw [hu]; show t * 2 ^ 20 + r ≤ 2 ^ 63 - 1; omega
  · rw [hu, Timestamp_eq]; omega
  · rw [hu, Randomness_eq]; omega
  · rw [hs1]
  · rw [hs1]

theorem New_success_witness :
    New State.init exampleNow (listSource [[1, 2, 3]]) 1 = some (.ok ⟨5308931⟩, exampleState) ∧
      ∃ t r, generateTimestamp State.init exampleNow = .ok t ∧
        (t = State.init.previousTimestamp → ∃ entropy, 0 < entropy ∧
          entropyLoop State.init.entropySize (listSource [[1, 2, 3]]) 1 0 = some (.ok entropy) ∧
          r = add64 State.init.previousRandomness entropy) ∧
        (t ≠ State.init.previousTimestamp →
          generateRandomness (generateRandomBytes (listSource [[1, 2, 3]]) 0) = .ok r) ∧
        (⟨5308931⟩ : UlidFlake).Int = t * 2 ^ 20 + r ∧ 0 ≤ (⟨5308931⟩ : UlidFlake).Int ∧
        (⟨5308931⟩ : UlidFlake).Int ≤ 2 ^ 63 - 1 ∧
        (⟨5308931⟩ : UlidFlake).Timestamp = t ∧ (⟨5308931⟩ : UlidFlake).Randomness = r ∧
        exampleState = { State.init with previousTimestamp := t, previousRandomness := r } ∧
        exampleState.previousTimestamp = t ∧ exampleState.previousRandomness = r ∧
        0 ≤ t ∧ t ≤ 2 ^ 43 - 1 ∧ 0 ≤ r ∧ r ≤ 2 ^ 20 - 1 :=
  ⟨by decide, New_success State.init exampleState exampleNow (listSource [[1, 2, 3]]) 1
    ⟨5308931⟩ (by decide)⟩

/-- Claim C9. In a valid state with a valid entropy size, when `New` computes the
previous timestamp again, the reads `0 .. k-1` of the random source have
big-endian value zero and read `k` has the non-zero value `e`, then `New`
skips the zero draws and emits the randomness `previousRandomness + e` if that
is at most `2^20-1`, and fails with `ErrOverflow` otherwise. -/
theorem New_same_millisecond (s : State) (now : Time) (rs : RandomSource) (fuel k : ℕ)
    (f : ℕ → Byte) (hv : s.Valid) (h1 : 1 ≤ s.entropySize) (h3 : s.entropySize ≤ 3)
    (ht : generateTimestamp s now = .ok s.previousTimestamp)
    (hzero : ∀ j < k, ∃ g, rs j = some g ∧
      bigEndianValue ((List.range s.entropySize.toNat).map g) = 0)
    (hk : rs k = some f)
    (he : bigEndianValue ((List.range s.entropySize.toNat).map f) ≠ 0)
    (hfuel : k < fuel) :
    (s.previousRandomness + bigEndianValue ((List.range s.entropySize.toNat).map f)
          ≤ 2 ^ 20 - 1 →
        ∃ u, New s now rs fuel = some (.ok u,
            { s with previousRandomness :=
                s.previousRandomness + bigEndianValue ((List.range s.entropySize.toNat).map f) })
          ∧ u.Timestamp = s.previousTimestamp
          ∧ u.Randomness =
            s.previousRandomness + bigEndianValue ((List.range s.entropySize.toNat).map f)) ∧
      (s.previousRandomness + bigEndianValue ((List.range s.entropySize.toNat).map f)
          > 2 ^ 20 - 1 →
        New s now rs fuel = some (.error ErrOverflow, s)) := by
  obtain ⟨hp0, hp1, hq0, hq1⟩ := hv
  have hMT : MaxTimestamp = 8796093022207 := by decide
  have hMR : MaxRandomness = 1048575 := by decide
  obtain ⟨b0, b1⟩ := bigEndianValue_bound ((List.range s.entropySize.toNat).map f)
  rw [List.length_map, List.length_range] at b1
  have hsz : s.entropySize.toNat ≤ 3 := by omega
  have hp : (256 : ℤ) ^ s.entropySize.toNat ≤ 256 ^ 3 := pow_le_pow_right₀ (by norm_num) hsz
  norm_num at hp
  generalize he' : bigEndianValue ((List.range s.entropySize.toNat).map f) = e at *
  have hloop : entropyLoop s.entropySize rs fuel 0 = some (.ok e) := by
    apply entropyLoop_skip s.entropySize rs e (by omega) k 0 fuel
    · intro j _ hj
      obtain ⟨g, hg1, hg2⟩ := hzero j (by omega)
      rw [generateEntropy_read _ rs j g h1 h3 hg1, hg2]
    · rw [Nat.zero_add, generateEntropy_read _ rs k f h1 h3 hk, he']
    · exact hfuel
  have ha : add64 s.previousRandomness e = s.previousRandomness + e := by
    unfold add64
    exact int64_of_range _ (by omega) (by omega)
  have hN : New s now rs fuel =
      if s.previousRandomness + e > MaxRandomness then some (.error ErrOverflow, s)
      else some (emit s s.previousTimestamp (s.previousRandomness + e)) := by
    unfold New
    rw [ht]
    simp only [lt_self_iff_false, if_false, if_true, hloop, ha]
  constructor
  · intro hle
    rw [hN, if_neg (by omega), emit_valid s _ _ hp0 hp1 (by omega) (by omega)]
    refine ⟨_, rfl, ?_, ?_⟩
    · rw [Timestamp_eq]; omega
    · rw [Randomness_eq]; omega
  · intro hgt
    rw [hN, if_pos (by omega)]

theorem New_same_millisecond_witness :
    exampleState.Valid ∧
      generateTimestamp exampleState exampleNow = .ok exampleState.previousTimestamp ∧
      bigEndianValue ((List.range exampleState.entropySize.toNat).map
        (fun j => ([0] : List Byte).getD j 0)) = 0 ∧
      bigEndianValue ((List.range exampleState.entropySize.toNat).map
        (fun j => ([7] : List Byte).getD j 0)) = 7 ∧
      ∃ u, New exampleState exampleNow (listSource [[0], [7]]) 2
          = some (.ok u, { exampleState with previousRandomness := 66051 + 7 })
        ∧ u.Timestamp = 5 ∧ u.Randomness = 66051 + 7 :=
  ⟨⟨by decide, by decide, by decide, by decide⟩, by decide, by decide, by decide,
    (New_same_millisecond exampleState exampleNow (listSource [[0], [7]]) 2 1
      (fun j => ([7] : List Byte).getD j 0) ⟨by decide, by decide, by decide, by decide⟩
      (by decide) (by decide) (by decide)
      (fun j hj => ⟨fun i => ([0] : List Byte).getD i 0, by
        have hj0 : j = 0 := by omega
        subst hj0
        rfl, by decide⟩)
      rfl (by decide) (by decide)).1 (by decide)⟩

/-- Claim C10. A clock reading whose timestamp is within `[0, 2^43-1]` but below
`previousTimestamp` makes `New` fail with `ErrInvalidTimestamp`; no identifier
is returned (and the state is left as it was). -/
theorem New_backward_clock (s : State) (now : Time) (rs : RandomSource) (fuel : ℕ)
    (h0 : 0 ≤ Milliseconds (now.Sub s.epochTime))
    (h1 : Milliseconds (now.Sub s.epochTime) ≤ 2 ^ 43 - 1)
    (h2 : Milliseconds (now.Sub s.epochTime) < s.previousTimestamp) :
    New s now rs fuel = some (.error ErrInvalidTimestamp, s) := by
  have hMT : MaxTimestamp = 8796093022207 := by decide
  unfold New
  rw [generateTimestamp_of_range s now h0 (by omega)]
  simp only []
  rw [if_pos h2]

theorem New_backward_clock_witness :
    0 ≤ Milliseconds ((Time.mk 1704067200003000000).Sub exampleState.epochTime) ∧
      Milliseconds ((Time.mk 1704067200003000000).Sub exampleState.epochTime) ≤ 2 ^ 43 - 1 ∧
      Milliseconds ((Time.mk 1704067200003000000).Sub exampleState.epochTime)
        < exampleState.previousTimestamp ∧
      New exampleState (Time.mk 1704067200003000000) (listSource []) 0
        = some (.error ErrInvalidTimestamp, exampleState) :=
  ⟨by decide, by decide, by decide,
    New_backward_clock exampleState (Time.mk 1704067200003000000) (listSource []) 0
      (by decide) (by decide) (by decide)⟩

/-- Claim C11. In every reachable state, a call of `New` that returns an error
leaves `previousTimestamp` and `previousRandomness` (the whole state) as they
were; equivalently, a call that has changed the state has succeeded, so the
overflow checks placed after the state update never fire. -/
theorem New_error_keeps_state (s : State) (now : Time) (rs : RandomSource) (fuel : ℕ)
    (hr : Reachable s) :
    (∀ err s1, New s now rs fuel = some (.error err, s1) →
        s1 = s ∧ s1.previousTimestamp = s.previousTimestamp ∧
          s1.previousRandomness = s.previousRandomness) ∧
      (∀ res s1, New s now rs fuel = some (res, s1) → s1 ≠ s → ∃ u, res = .ok u) := by
  have key : ∀ err s1, New s now rs fuel = some (.error err, s1) → s1 = s :=
    fun err s1 h => New_error s s1 now rs fuel err hr.valid h
  constructor
  · intro err s1 h
    have := key err s1 h
    exact ⟨this, by rw [this], by rw [this]⟩
  · intro res s1 h hne
    cases res with
    | error err => exact absurd (key err s1 h) hne
    | ok u => exact ⟨u, rfl⟩

theorem New_error_keeps_state_witness :
    Reachable exampleState ∧
      New exampleState exampleNow (listSource []) 1
        = some (.error ErrRandomSource, exampleState) ∧
      (∀ err s1, New exampleState exampleNow (listSource []) 1 = some (.error err, s1) →
        s1 = exampleState ∧ s1.previousTimestamp = exampleState.previousTimestamp ∧
          s1.previousRandomness = exampleState.previousRandomness) ∧
      (∀ res s1, New exampleState exampleNow (listSource []) 1 = some (res, s1) →
        s1 ≠ exampleState → ∃ u, res = .ok u) :=
  ⟨exampleState_reachable, by decide,
    New_error_keeps_state exampleState exampleNow (listSource []) 1 exampleState_reachable⟩

/-- Claim C12. With `d = now - epoch` (exact, in nanoseconds): when
`floor(d / 1 ms)` is within `[0, 2^43-1]`, `generateTimestamp` returns it with
no error, so the epoch itself gives 0 and the epoch plus `2^43-1` ms gives
`2^43-1`; when `floor(d / 1 ms)` is above `2^43-1`, as for the epoch plus
`2^43` ms, it fails with `ErrOverflow`. -/
theorem generateTimestamp_spec (s : State) (now : Time) :
    (0 ≤ (now.unixNano - s.epochTime.unixNano) / 1000000 ∧
        (now.unixNano - s.epochTime.unixNano) / 1000000 ≤ 2 ^ 43 - 1 →
      generateTimestamp s now = .ok ((now.unixNano - s.epochTime.unixNano) / 1000000)) ∧
      (2 ^ 43 - 1 < (now.unixNano - s.epochTime.unixNano) / 1000000 →
        generateTimestamp s now = .error ErrOverflow) ∧
      generateTimestamp s s.epochTime = .ok 0 ∧
      generateTimestamp s ⟨s.epochTime.unixNano + (2 ^ 43 - 1) * 1000000⟩ = .ok (2 ^ 43 - 1) ∧
      generateTimestamp s ⟨s.epochTime.unixNano + 2 ^ 43 * 1000000⟩ = .error ErrOverflow := by
  refine ⟨fun h => generateTimestamp_in_range s now h.1 h.2, generateTimestamp_above s now,
    ?_, ?_, ?_⟩
  · have := generateTimestamp_in_range s s.epochTime (by simp) (by simp)
    simpa using this
  · have := generateTimestamp_in_range s ⟨s.epochTime.unixNano + (2 ^ 43 - 1) * 1000000⟩
      (by simp) (by simp)
    simpa using this
  · exact generateTimestamp_above s _ (by simp)

/-- Claim C13, evaluated at a failing input. One nanosecond before the default
epoch `generateTimestamp` returns the timestamp 0 with no error (the duration
of -1 ns is truncated toward zero), and `New`, called in the initial state,
emits an identifier. -/
theorem generateTimestamp_one_nanosecond_before_epoch :
    (Time.mk 1704067199999999999).unixNano < State.init.epochTime.unixNano ∧
      generateTimestamp State.init (Time.mk 1704067199999999999) = .ok 0 ∧
      New State.init (Time.mk 1704067199999999999) (listSource [[1]]) 1
        = some (.ok ⟨1⟩, { State.init with previousRandomness := 1 }) := by
  decide

/-- Claim C14, refuted as stated. One second before the default epoch the error
of `generateTimestamp`, and of `New`, is `ErrOverflow`, not
`ErrInvalidTimestamp`. -/
theorem generateTimestamp_before_epoch_not_invalid_timestamp :
    (Time.Unix 1704067199).unixNano < State.init.epochTime.unixNano ∧
      generateTimestamp State.init (Time.Unix 1704067199) = .error ErrOverflow ∧
      generateTimestamp State.init (Time.Unix 1704067199) ≠ .error ErrInvalidTimestamp ∧
      New State.init (Time.Unix 1704067199) (listSource [[1]]) 1
        = some (.error ErrOverflow, State.init) ∧
      New State.init (Time.Unix 1704067199) (listSource [[1]]) 1
        ≠ some (.error ErrInvalidTimestamp, State.init) := by
  decide

/-- Claim C14, amended. When the clock reading precedes the configured epoch by
at least one millisecond, the error returned by `generateTimestamp`, and hence
by `New`, is `ErrOverflow`: the same kind as for a timestamp above the 43-bit
ceiling. -/
theorem generation_out_of_range_is_overflow (s : State) (now : Time) (rs : RandomSource)
    (fuel : ℕ)
    (h : now.unixNano - s.epochTime.unixNano ≤ -1000000 ∨
      2 ^ 43 - 1 < (now.unixNano - s.epochTime.unixNano) / 1000000) :
    generateTimestamp s now = .error ErrOverflow ∧
      New s now rs fuel = some (.error ErrOverflow, s) := by
  have hg : generateTimestamp s now = .error ErrOverflow := by
    rcases h with h | h
    · exact generateTimestamp_before s now h
    · exact generateTimestamp_above s now h
  exact ⟨hg, New_of_generateTimestamp_error s now rs fuel _ hg⟩

theorem generation_out_of_range_is_overflow_witness :
    ((Time.Unix 1704067199).unixNano - State.init.epochTime.unixNano ≤ -1000000 ∨
        2 ^ 43 - 1 < ((Time.Unix 1704067199).unixNano - State.init.epochTime.unixNano)
          / 1000000) ∧
      generateTimestamp State.init (Time.Unix 1704067199) = .error ErrOverflow ∧
      New State.init (Time.Unix 1704067199) (listSource [[1]]) 1
        = some (.error ErrOverflow, State.init) :=
  ⟨Or.inl (by decide),
    generation_out_of_range_is_overflow State.init (Time.Unix 1704067199) (listSource [[1]]) 1
      (Or.inl (by decide))⟩

/-- Claim C15. `FromInt` and `NewUlidFlake` succeed exactly on `[0, 2^63-1]`,
then with an identifier whose `Int()` is the argument; on every other `int64`,
that is on every negative one, they fail with `ErrOverflow`. -/
theorem FromInt_spec (v : ℤ) :
    FromInt v = NewUlidFlake v ∧
      ((∃ u, FromInt v = .ok u) ↔ (0 ≤ v ∧ v ≤ 2 ^ 63 - 1)) ∧
      (∀ u, FromInt v = .ok u → u.Int = v) ∧
      (FromInt v = .error ErrOverflow ↔ ¬ (0 ≤ v ∧ v ≤ 2 ^ 63 - 1)) ∧
      (v < 0 → FromInt v = .error ErrOverflow ∧ NewUlidFlake v = .error ErrOverflow) ∧
      FromInt (-1) = .error ErrOverflow ∧ FromInt (-2 ^ 63) = .error ErrOverflow ∧
      FromInt 0 = .ok ⟨0⟩ ∧ FromInt (2 ^ 63 - 1) = .ok ⟨2 ^ 63 - 1⟩ := by
  have hF : FromInt v = NewUlidFlake v := by
    unfold FromInt
    split_ifs with h
    · unfold NewUlidFlake; rw [if_pos h]
    · rfl
  have hN : NewUlidFlake v =
      if v < 0 ∨ v > 2 ^ 63 - 1 then .error ErrOverflow else .ok ⟨v⟩ := rfl
  refine ⟨hF, ?_, ?_, ?_, ?_, by decide, by decide, by decide, by decide⟩
  · rw [hF, hN]
    constructor
    · rintro ⟨u, hu⟩
      split_ifs at hu with h
      omega
    · intro h
      rw [if_neg (by omega)]
      exact ⟨_, rfl⟩
  · intro u hu
    rw [hF, hN] at hu
    split_ifs at hu with h
    cases hu
    rfl
  · rw [hF, hN]
    constructor
    · intro he
      split_ifs at he with h
      omega
    · intro h
      rw [if_pos (by omega)]
  · intro h
    rw [hF, hN, if_pos (Or.inl h)]
    exact ⟨rfl, rfl⟩

/-- Claim C16. For every seconds value `sec` with
`0 ≤ (sec - 1704067200) * 1000 ≤ 2^43-1` and every successful 3-byte draw,
`FromUnixEpochTime sec` succeeds with an identifier whose `Timestamp()` is
`(sec - 1704067200) * 1000` and whose `Randomness()` is the low 20 bits of the
draw; the state is returned unchanged and the result is the same in every
state (in particular under the default configuration). -/
theorem FromUnixEpochTime_spec (s : State) (unixTimeSec : ℤ) (rs : RandomSource) (f : ℕ → Byte)
    (h0 : 0 ≤ (unixTimeSec - 1704067200) * 1000)
    (h1 : (unixTimeSec - 1704067200) * 1000 ≤ 2 ^ 43 - 1) (hf : rs 0 = some f) :
    ∃ u, FromUnixEpochTime s unixTimeSec rs = (.ok u, s) ∧
      u.Timestamp = (unixTimeSec - 1704067200) * 1000 ∧
      u.Randomness = bigEndianValue ((List.range 3).map f) % 2 ^ 20 ∧
      ∀ s1 : State, FromUnixEpochTime s1 unixTimeSec rs = (.ok u, s1) := by
  have ht : sub64 (mul64 unixTimeSec 1000) (int64 (DefaultEpochSec * 1000))
      = (unixTimeSec - 1704067200) * 1000 := by
    have hE : int64 (DefaultEpochSec * 1000) = 1704067200000 := by decide
    unfold sub64 mul64
    rw [hE, int64_of_range (unixTimeSec * 1000) (by omega) (by omega),
      int64_of_range _ (by omega) (by omega)]
    ring
  have key : ∀ s1 : State, FromUnixEpochTime s1 unixTimeSec rs
      = (.ok ⟨(unixTimeSec - 1704067200) * 1000 * 2 ^ 20
          + bigEndianValue ((List.range 3).map f) % 2 ^ 20⟩, s1) := by
    intro s1
    have := FromUnixEpochTime_of_timestamp s1 unixTimeSec rs f hf (by rw [ht]; exact h0)
      (by rw [ht]; exact h1)
    rw [ht] at this
    exact this
  have hr0 : 0 ≤ bigEndianValue ((List.range 3).map f) % 2 ^ 20 :=
    Int.emod_nonneg _ (by norm_num)
  have hr1 : bigEndianValue ((List.range 3).map f) % 2 ^ 20 < 2 ^ 20 :=
    Int.emod_lt_of_pos _ (by norm_num)
  refine ⟨_, key s, ?_, ?_, key⟩
  · rw [Timestamp_eq]; omega
  · rw [Randomness_eq]; omega

theorem FromUnixEpochTime_spec_witness :
    (0 : ℤ) ≤ (1704067205 - 1704067200) * 1000 ∧
      ((1704067205 - 1704067200) * 1000 : ℤ) ≤ 2 ^ 43 - 1 ∧
      ∃ u, FromUnixEpochTime exampleState 1704067205 (listSource [[255, 2, 3]])
          = (.ok u, exampleState) ∧
        u.Timestamp = (1704067205 - 1704067200) * 1000 ∧
        u.Randomness
          = bigEndianValue ((List.range 3).map (fun j => ([255, 2, 3] : List Byte).getD j 0))
            % 2 ^ 20 ∧
        ∀ s1 : State, FromUnixEpochTime s1 1704067205 (listSource [[255, 2, 3]]) = (.ok u, s1) :=
  ⟨by decide, by decide,
    FromUnixEpochTime_spec exampleState 1704067205 (listSource [[255, 2, 3]])
      (fun j => ([255, 2, 3] : List Byte).getD j 0) (by decide) (by decide) rfl⟩

/-- Claim C17, evaluated at a failing input. For the `int64` seconds value
`1704067200 + 2^61` the exact timestamp `sec * 1000 - 1704067200000` is far
above `2^43-1`, but `sec * 1000` wraps around to `1704067200000`, the range
check passes and `FromUnixEpochTime` returns an identifier (with timestamp 0). -/
theorem FromUnixEpochTime_accepts_wrapped_seconds :
    (2305843010917761152 : ℤ) = 1704067200 + 2 ^ 61 ∧
      (2305843010917761152 : ℤ) ≤ 2 ^ 63 - 1 ∧
      (2 ^ 43 - 1 : ℤ) < 2305843010917761152 * 1000 - 1704067200000 ∧
      FromUnixEpochTime State.init 2305843010917761152 (listSource [[1, 2, 3]])
        = (.ok ⟨66051⟩, State.init) ∧
      (⟨66051⟩ : UlidFlake).Timestamp = 0 := by
  decide

/-- Claim C18, evaluated at a failing input. After `SetConfig` has installed the
Unix origin as epoch, `generateTimestamp` gives the instant 1704067200 s the
timestamp 1704067200000, but `FromUnixEpochTime 1704067200` still measures from
the default epoch and returns an identifier with timestamp 0. -/
theorem FromUnixEpochTime_ignores_configured_epoch :
    SetConfig State.init [WithEpochTime (Time.Unix 0)]
        = (.ok (), { State.init with epochTime := Time.Unix 0 }) ∧
      generateTimestamp (SetConfig State.init [WithEpochTime (Time.Unix 0)]).2
        (Time.Unix 1704067200) = .ok 1704067200000 ∧
      FromUnixEpochTime (SetConfig State.init [WithEpochTime (Time.Unix 0)]).2 1704067200
        (listSource [[1, 2, 3]])
        = (.ok ⟨66051⟩, (SetConfig State.init [WithEpochTime (Time.Unix 0)]).2) ∧
      (⟨66051⟩ : UlidFlake).Timestamp = 0 ∧
      (⟨66051⟩ : UlidFlake).Timestamp ≠ 1704067200 * 1000 - 0 * 1000 := by
  decide

/-- Claim C19. `SetConfig(WithEntropySize(n))` fails with `ErrInvalidEntropy`
exactly when `n < 1` or `n > 3` (so for 0 and for 4), leaving the configuration
as it was; for `n` in `{1, 2, 3}` it succeeds and the active entropy size
becomes `n`. -/
theorem SetConfig_WithEntropySize (s : State) (n : ℤ) :
    SetConfig s [WithEntropySize n] =
        (if n < 1 ∨ n > 3 then (.error ErrInvalidEntropy, s)
         else (.ok (), { s with epochTime := Time.Unix DefaultEpochSec, entropySize := n })) ∧
      ((SetConfig s [WithEntropySize n]).1 = .error ErrInvalidEntropy ↔ (n < 1 ∨ n > 3)) ∧
      ((SetConfig s [WithEntropySize n]).1 = .ok () ∧
          (SetConfig s [WithEntropySize n]).2.entropySize = n ↔ (1 ≤ n ∧ n ≤ 3)) ∧
      SetConfig s [WithEntropySize 0] = (.error ErrInvalidEntropy, s) ∧
      SetConfig s [WithEntropySize 4] = (.error ErrInvalidEntropy, s) := by
  have key : ∀ m : ℤ, SetConfig s [WithEntropySize m] =
      (if m < 1 ∨ m > 3 then (.error ErrInvalidEntropy, s)
       else (.ok (), { s with epochTime := Time.Unix DefaultEpochSec, entropySize := m })) := by
    intro m
    unfold SetConfig applyOptions WithEntropySize
    simp only [MinEntropySize, MaxEntropySize]
    by_cases h : m < 1 ∨ m > 3
    · rw [if_pos h, if_pos h]
    · rw [if_neg h, if_neg h]
      rfl
  refine ⟨key n, ?_, ?_, ?_, ?_⟩
  · rw [key n]
    by_cases h : n < 1 ∨ n > 3
    · rw [if_pos h]; simp [h]
    · rw [if_neg h]; simp [h]
  · rw [key n]
    by_cases h : n < 1 ∨ n > 3
    · rw [if_pos h]
      constructor
      · rintro ⟨h1, -⟩
        cases h1
      · intro h2
        omega
    · rw [if_neg h]
      constructor
      · intro _
        omega
      · intro _
        exact ⟨rfl, rfl⟩
  · rw [key 0]; rfl
  · rw [key 4]; rfl

/-- Claim C20. When some option of the list fails validation (it is refused on
every draft, as `WithEntropySize 0` is), wherever it stands and whatever the
other options are, `SetConfig` returns an error and the active epoch and
entropy size (the whole state) are as before the call; more generally every
call of `SetConfig` that returns an error leaves the state as it was. -/
theorem SetConfig_failure_keeps_state (s : State) (opts : List ConfigOption)
    (h : ∃ o ∈ opts, ∀ cfg, ∃ err, o cfg = .error err) :
    (∃ err, SetConfig s opts = (.error err, s)) ∧
      (SetConfig s opts).2.epochTime = s.epochTime ∧
      (SetConfig s opts).2.entropySize = s.entropySize ∧
      ∀ (s1 : State) (opts1 : List ConfigOption) (err : Error),
        (SetConfig s1 opts1).1 = .error err → (SetConfig s1 opts1).2 = s1 := by
  obtain ⟨err, he⟩ := applyOptions_fails opts h
    { epochTime := Time.Unix DefaultEpochSec, entropySize := MinEntropySize }
  have hS : SetConfig s opts = (.error err, s) := by
    unfold SetConfig
    rw [he]
  refine ⟨⟨err, hS⟩, by rw [hS], by rw [hS], ?_⟩
  intro s1 opts1 err1 h1
  unfold SetConfig at h1 ⊢
  split at h1
  · rfl
  · cases h1

theorem SetConfig_failure_keeps_state_witness :
    (∃ o ∈ [WithEpochTime (Time.Unix 0), WithEntropySize 0],
        ∀ cfg, ∃ err, o cfg = .error err) ∧
      (∃ err, SetConfig exampleState [WithEpochTime (Time.Unix 0), WithEntropySize 0]
        = (.error err, exampleState)) ∧
      (SetConfig exampleState [WithEpochTime (Time.Unix 0), WithEntropySize 0]).2.epochTime
        = exampleState.epochTime ∧
      (SetConfig exampleState [WithEpochTime (Time.Unix 0), WithEntropySize 0]).2.entropySize
        = exampleState.entropySize ∧
      ∀ (s1 : State) (opts1 : List ConfigOption) (err : Error),
        (SetConfig s1 opts1).1 = .error err → (SetConfig s1 opts1).2 = s1 :=
  ⟨⟨WithEntropySize 0, by simp, WithEntropySize_fails 0 (by decide)⟩,
    SetConfig_failure_keeps_state exampleState [WithEpochTime (Time.Unix 0), WithEntropySize 0]
      ⟨WithEntropySize 0, by simp, WithEntropySize_fails 0 (by decide)⟩⟩

/-- Claim C21. After a successful `SetConfig(opts)` the active epoch and entropy
size are those of the draft obtained by applying `opts` in order to the
defaults (epoch 1704067200 s, entropy size 1), whatever the configuration was
before: a value set by an earlier call and not supplied again is back at its
default, a later option of the list overrides an earlier one, and `SetConfig()`
restores both defaults. -/
theorem SetConfig_replaces (s : State) (opts : List ConfigOption)
    (h : (SetConfig s opts).1 = .ok ()) :
    (∃ cfg, opts.foldlM (fun c (o : ConfigOption) => o c)
          { epochTime := Time.Unix 1704067200, entropySize := 1 } = .ok cfg ∧
        ∀ s1 : State, SetConfig s1 opts
          = (.ok (), { s1 with epochTime := cfg.epochTime, entropySize := cfg.entropySize })) ∧
      (∀ e : Time,
        (SetConfig (SetConfig s [WithEntropySize 3]).2 [WithEpochTime e]).2.entropySize = 1 ∧
        (SetConfig (SetConfig s [WithEpochTime e]).2 [WithEntropySize 2]).2.epochTime
          = Time.Unix 1704067200) ∧
      (∀ e1 e2 : Time,
        (SetConfig s [WithEntropySize 2, WithEpochTime e1, WithEntropySize 3,
            WithEpochTime e2]).2.entropySize = 3 ∧
        (SetConfig s [WithEntropySize 2, WithEpochTime e1, WithEntropySize 3,
            WithEpochTime e2]).2.epochTime = e2) ∧
      SetConfig s []
        = (.ok (), { s with epochTime := Time.Unix 1704067200, entropySize := 1 }) := by
  refine ⟨?_, fun e => ⟨rfl, rfl⟩, fun e1 e2 => ⟨rfl, rfl⟩, rfl⟩
  cases ha : applyOptions opts
      { epochTime := Time.Unix DefaultEpochSec, entropySize := MinEntropySize } with
  | error err =>
    unfold SetConfig at h
    rw [ha] at h
    cases h
  | ok cfg =>
    refine ⟨cfg, ?_, fun s1 => SetConfig_of_ok s1 opts cfg ha⟩
    rw [← applyOptions_eq_foldlM]
    exact ha

theorem SetConfig_replaces_witness :
    (SetConfig { exampleState with entropySize := 3 } [WithEpochTime (Time.Unix 0)]).1 = .ok () ∧
      SetConfig { exampleState with entropySize := 3 } [WithEpochTime (Time.Unix 0)]
        = (.ok (), { exampleState with epochTime := Time.Unix 0, entropySize := 1 }) ∧
      (∃ cfg, [WithEpochTime (Time.Unix 0)].foldlM (fun c (o : ConfigOption) => o c)
          { epochTime := Time.Unix 1704067200, entropySize := 1 } = .ok cfg ∧
        ∀ s1 : State, SetConfig s1 [WithEpochTime (Time.Unix 0)]
          = (.ok (), { s1 with epochTime := cfg.epochTime, entropySize := cfg.entropySize })) :=
  ⟨by decide, by decide,
    (SetConfig_replaces { exampleState with entropySize := 3 } [WithEpochTime (Time.Unix 0)]
      (by decide)).1⟩

/-- Claim C22, refuted as stated. The identifier values 0 and `2^56` are in
range and `0 < 2^56`, but `bytes()` gives both the same seven zero bytes, so
the bytes of 0 are not smaller. -/
theorem bytes_order_fails_above_56_bits :
    (0 : ℤ) ≤ 2 ^ 56 ∧ (2 ^ 56 : ℤ) ≤ 2 ^ 63 - 1 ∧ (0 : ℤ) < 2 ^ 56 ∧
      (UlidFlake.mk 0).bytes = (UlidFlake.mk (2 ^ 56)).bytes ∧
      strLt (UlidFlake.mk 0).bytes (UlidFlake.mk (2 ^ 56)).bytes = false ∧
      ¬ ((0 : ℤ) < 2 ^ 56 ↔
        strLt (UlidFlake.mk 0).bytes (UlidFlake.mk (2 ^ 56)).bytes = true) := by
  decide

/-- Claim C22, amended. For identifier values `u` and `v` in `[0, 2^63-1]`,
`bytes(u)` is byte-wise lexicographically smaller than `bytes(v)` exactly when
`u mod 2^56 < v mod 2^56`; so for values below `2^56` comparing the raw bytes
gives the numeric order. -/
theorem bytes_order (u v : ℤ) (hu0 : 0 ≤ u) (hu1 : u ≤ 2 ^ 63 - 1) (hv0 : 0 ≤ v)
    (hv1 : v ≤ 2 ^ 63 - 1) :
    (u % 2 ^ 56 < v % 2 ^ 56 ↔ strLt (UlidFlake.mk u).bytes (UlidFlake.mk v).bytes = true) ∧
      (u < 2 ^ 56 → v < 2 ^ 56 →
        (u < v ↔ strLt (UlidFlake.mk u).bytes (UlidFlake.mk v).bytes = true)) := by
  have h := strLt_bytes u v
  constructor
  · rw [h, decide_eq_true_iff]
  · intro hu hv
    rw [h, decide_eq_true_iff]
    omega

theorem bytes_order_witness :
    (0 : ℤ) ≤ 255 ∧ (255 : ℤ) ≤ 2 ^ 63 - 1 ∧ (0 : ℤ) ≤ 256 ∧ (256 : ℤ) ≤ 2 ^ 63 - 1 ∧
      ((255 : ℤ) % 2 ^ 56 < 256 % 2 ^ 56 ↔
        strLt (UlidFlake.mk 255).bytes (UlidFlake.mk 256).bytes = true) ∧
      ((255 : ℤ) < 2 ^ 56 → (256 : ℤ) < 2 ^ 56 →
        ((255 : ℤ) < 256 ↔ strLt (UlidFlake.mk 255).bytes (UlidFlake.mk 256).bytes = true)) :=
  ⟨by decide, by decide, by decide, by decide,
    bytes_order 255 256 (by decide) (by decide) (by decide) (by decide)⟩

/-- Claim C23. For every integer `v` (so for every `int64`) `bytes()` returns
exactly 7 bytes, byte `k` being `(v >> 8*(6-k)) & 255`: they write, most
significant byte first, the low 56 bits of `v`.  So 0 and `-2^63` give seven
bytes `0x00`, and `2^63-1` and `-1` give seven bytes `0xFF`. -/
theorem bytes_spec (v : ℤ) (k : Fin 7) :
    (UlidFlake.mk v).bytes.length = 7 ∧
      (UlidFlake.mk v).bytes[k.val]?
        = some (Fin.ofNat (Int.land (v >>> (8 * (6 - k.val))) 255).toNat) ∧
      (Int.land (v >>> (8 * (6 - k.val))) 255).toNat < 256 ∧
      bigEndianValue (UlidFlake.mk v).bytes = v % 2 ^ 56 ∧
      (UlidFlake.mk 0).bytes = [0, 0, 0, 0, 0, 0, 0] ∧
      (UlidFlake.mk (-2 ^ 63)).bytes = [0, 0, 0, 0, 0, 0, 0] ∧
      (UlidFlake.mk (2 ^ 63 - 1)).bytes = [255, 255, 255, 255, 255, 255, 255] ∧
      (UlidFlake.mk (-1)).bytes = [255, 255, 255, 255, 255, 255, 255] := by
  refine ⟨?_, bytes_getElem? v k, ?_, ?_, bytes_boundary⟩
  · rw [bytes_eq, bigEndianBytes_length]
  · rw [land_255]
    omega
  · rw [bytes_eq_low, bigEndianValue_bigEndianBytes]
    norm_num
    omega

/-- Claim C24, evaluated at a failing schedule. `SetConfig` writes `epochTime`
and then `entropySize` without taking the mutex. In `exampleState`, with
`SetConfig(WithEpochTime(epoch + 2 ms), WithEntropySize(3))` under way and the
clock 7 ms after the default epoch, a `New` that runs between the two
assignments computes with the new epoch (timestamp 5, the previous one) and
the old entropy size (1 byte): its identifier is neither the one of the old
configuration nor the one of the new configuration. -/
theorem New_sees_SetConfig_midway :
    SetConfig exampleState
        [WithEpochTime ⟨1704067200002000000⟩, WithEntropySize 3]
        = (.ok (), { exampleState with epochTime := ⟨1704067200002000000⟩, entropySize := 3 }) ∧
      SetConfigEpochWritten exampleState
        [WithEpochTime ⟨1704067200002000000⟩, WithEntropySize 3]
        = some { exampleState with epochTime := ⟨1704067200002000000⟩ } ∧
      New exampleState ⟨1704067200007000000⟩ (listSource [[1, 2, 3]]) 1
        = some (.ok ⟨7 * 2 ^ 20 + 66051⟩,
            { exampleState with previousTimestamp := 7, previousRandomness := 66051 }) ∧
      New { exampleState with epochTime := ⟨1704067200002000000⟩, entropySize := 3 }
          ⟨1704067200007000000⟩ (listSource [[1, 2, 3]]) 1
        = some (.ok ⟨5 * 2 ^ 20 + (66051 + 66051)⟩,
            { exampleState with epochTime := ⟨1704067200002000000⟩, entropySize := 3,
                                previousRandomness := 66051 + 66051 }) ∧
      New { exampleState with epochTime := ⟨1704067200002000000⟩ }
          ⟨1704067200007000000⟩ (listSource [[1, 2, 3]]) 1
        = some (.ok ⟨5 * 2 ^ 20 + (66051 + 1)⟩,
            { exampleState with epochTime := ⟨1704067200002000000⟩,
                                previousRandomness := 66051 + 1 }) := by
  decide

/-- Claim C25. When `New` computes a timestamp above `previousTimestamp` and the
read of the random source succeeds, the emitted randomness is the low 20 bits
of the big-endian value of the 3 bytes read: it lies in `[0, 2^20-1]`, it is
the same whatever `previousRandomness` was, and every value of `[0, 2^20-1]`
comes from some 3-byte draw (three bytes `0xFF` give `2^20-1`, three bytes
`0x00` give 0). -/
theorem New_fresh_randomness (s : State) (now : Time) (rs : RandomSource) (fuel : ℕ)
    (f : ℕ → Byte) (t : ℤ) (ht : generateTimestamp s now = .ok t)
    (hgt : s.previousTimestamp < t) (hf : rs 0 = some f) :
    (∃ u s1, New s now rs fuel = some (.ok u, s1) ∧
        u.Randomness = bigEndianValue ((List.range 3).map f) % 2 ^ 20 ∧
        s1.previousRandomness = bigEndianValue ((List.range 3).map f) % 2 ^ 20 ∧
        u.Timestamp = t ∧ 0 ≤ u.Randomness ∧ u.Randomness ≤ 2 ^ 20 - 1 ∧
        ∀ p : ℤ, ∃ s2, New { s with previousRandomness := p } now rs fuel = some (.ok u, s2)) ∧
      (∀ r : ℤ, 0 ≤ r → r ≤ 2 ^ 20 - 1 →
        ∃ g : ℕ → Byte, bigEndianValue ((List.range 3).map g) % 2 ^ 20 = r) ∧
      bigEndianValue [255, 255, 255] % 2 ^ 20 = 2 ^ 20 - 1 ∧
      bigEndianValue [0, 0, 0] % 2 ^ 20 = 0 := by
  obtain ⟨-, ht0, ht1⟩ := generateTimestamp_ok s now t ht
  have hMT : MaxTimestamp = 8796093022207 := by decide
  have hr0 : 0 ≤ bigEndianValue ((List.range 3).map f) % 2 ^ 20 :=
    Int.emod_nonneg _ (by norm_num)
  have hr1 : bigEndianValue ((List.range 3).map f) % 2 ^ 20 < 2 ^ 20 :=
    Int.emod_lt_of_pos _ (by norm_num)
  have hR : (UlidFlake.mk (t * 2 ^ 20 + bigEndianValue ((List.range 3).map f) % 2 ^ 20)).Randomness
      = bigEndianValue ((List.range 3).map f) % 2 ^ 20 := by
    rw [Randomness_eq]; omega
  refine ⟨⟨_, _, New_fresh s now rs fuel f t ht hgt hf, hR, rfl, ?_, ?_, ?_, ?_⟩,
    randomness_surjective, by decide, by decide⟩
  · rw [Timestamp_eq]; omega
  · rw [hR]; exact hr0
  · rw [hR]; omega
  · intro p
    exact ⟨_, New_fresh { s with previousRandomness := p } now rs fuel f t ht hgt hf⟩

theorem New_fresh_randomness_witness :
    generateTimestamp State.init exampleNow = .ok 5 ∧ State.init.previousTimestamp < 5 ∧
      ∃ u s1, New State.init exampleNow (listSource [[255, 255, 255]]) 0 = some (.ok u, s1) ∧
        u.Randomness
          = bigEndianValue ((List.range 3).map (fun j => ([255, 255, 255] : List Byte).getD j 0))
            % 2 ^ 20 ∧
        s1.previousRandomness
          = bigEndianValue ((List.range 3).map (fun j => ([255, 255, 255] : List Byte).getD j 0))
            % 2 ^ 20 ∧
        u.Timestamp = 5 ∧ 0 ≤ u.Randomness ∧ u.Randomness ≤ 2 ^ 20 - 1 ∧
        ∀ p : ℤ, ∃ s2, New { State.init with previousRandomness := p } exampleNow
          (listSource [[255, 255, 255]]) 0 = some (.ok u, s2) :=
  ⟨by decide, by decide,
    (New_fresh_randomness State.init exampleNow (listSource [[255, 255, 255]]) 0
      (fun j => ([255, 255, 255] : List Byte).getD j 0) 5 (by decide) (by decide) rfl).1⟩

/-- Claim C26. For a string `s` of 13 symbols of the alphabet with unbounded
base-32 value `N` (so `0 ≤ N < 2^65`), `Parse s` succeeds exactly when
`N mod 2^64 < 2^63`, that is when the alphabet index of the first symbol is
below 8 modulo 16, and then returns the identifier `N mod 2^64`; otherwise it
fails with `ErrOverflow`. -/
theorem Parse_wraps (s : GoString) (hl : s.length = 13) (hs : ∀ b ∈ s, b ∈ encoding) :
    0 ≤ base32Value s ∧ base32Value s < 2 ^ 65 ∧
      (base32Value s % 2 ^ 64 < 2 ^ 63 ↔ findIndex (s.headD 0).val encoding 0 % 16 < 8) ∧
      ((∃ u, Parse s = .ok u) ↔ base32Value s % 2 ^ 64 < 2 ^ 63) ∧
      (base32Value s % 2 ^ 64 < 2 ^ 63 →
        ∃ u, Parse s = .ok u ∧ u.Int = base32Value s % 2 ^ 64) ∧
      (¬ base32Value s % 2 ^ 64 < 2 ^ 63 → Parse s = .error ErrOverflow) := by
  obtain ⟨hN0, hN1⟩ := base32Value_bound s hs
  rw [hl] at hN1
  have hP := Parse_alphabet s hl hs
  have hok : base32Value s % 2 ^ 64 < 2 ^ 63 →
      Parse s = .ok ⟨base32Value s % 2 ^ 64⟩ := by
    intro h
    rw [hP, int64_eq_mod _ h]
    unfold NewUlidFlake
    have := Int.emod_nonneg (base32Value s) (show (2 ^ 64 : ℤ) ≠ 0 by norm_num)
    rw [if_neg (by omega)]
  have hbad : ¬ base32Value s % 2 ^ 64 < 2 ^ 63 → Parse s = .error ErrOverflow := by
    intro h
    rw [hP]
    unfold NewUlidFlake
    rw [if_pos (Or.inl (by
      have := int64_nonneg_iff (base32Value s)
      omega))]
  refine ⟨hN0, by norm_num at hN1 ⊢; omega, ?_, ?_, fun h => ⟨_, hok h, rfl⟩, hbad⟩
  · cases s with
    | nil => simp at hl
    | cons b bs =>
      have hbl : bs.length = 12 := by simpa using hl
      obtain ⟨t0, t1⟩ := base32Value_bound bs (fun c hc => hs c (List.mem_cons_of_mem _ hc))
      obtain ⟨hb0, hb1, -⟩ := findIndex_bounds b (hs b (List.mem_cons_self _ _))
      rw [base32Value_cons, hbl]
      rw [hbl] at t1
      simp only [List.headD_cons]
      norm_num at t1 ⊢
      omega
  · constructor
    · rintro ⟨u, hu⟩
      by_contra hc
      rw [hbad hc] at hu
      cases hu
    · intro h
      exact ⟨_, hok h⟩

set_option maxRecDepth 100000 in
theorem Parse_wraps_witness :
    (ascii "H00000000000Z").length = 13 ∧ (∀ b ∈ ascii "H00000000000Z", b ∈ encoding) ∧
      base32Value (ascii "H00000000000Z") = 2 ^ 64 + 2 ^ 60 + 31 ∧
      Parse (ascii "H00000000000Z") = .ok ⟨2 ^ 60 + 31⟩ ∧
      Parse (ascii "R000000000000") = .error ErrOverflow ∧
      ((∃ u, Parse (ascii "H00000000000Z") = .ok u) ↔
        base32Value (ascii "H00000000000Z") % 2 ^ 64 < 2 ^ 63) :=
  ⟨by decide, by decide, by decide, by decide, by decide,
    (Parse_wraps (ascii "H00000000000Z") (by decide) (by decide)).2.2.2.1⟩

end Ulidflake
